import Mathlib

/-!
docindex: an in-memory index of text documents with front matter

A shallow embedding of `index.go` (package `docindex`): the index structure,
`Open`, `Reload`, `loadFile`, `IsNotFound`, `Filenames`, `AllMetadata` and
`Doc`, followed by the properties proved about them.

Conventions of the embedding

* A Go `string` is a Lean `String`; `sort.Strings` orders strings bytewise,
  which on valid UTF-8 is the code point order of `String`.
* A Go `[]byte` is a `List UInt8`.
* A Go map is an association list with at most one entry per key
  (`GoMap`); the order of a `range` over it is an explicit parameter
  (`RangeOrder`), since Go leaves it unspecified.
* The file system and `filepath.Walk` are external: `FileSystem` records what
  `os.Stat`, `filepath.Walk` and `ioutil.ReadFile` answer.
* `reflect.Type` and `json.Unmarshal` are external: `MetaType M` records the
  zero value of the metadata type and the decoder into it.
* Every operation is one atomic step on the index; the mutex `docsLock`
  appears in the lists of events of the operations (`ReloadEvents`,
  `FilenamesEvents`, `DocEvents`, `AllMetadataEvents`), which record where each
  one locks, unlocks, reads and writes.
* A run-time panic is an explicit outcome (`Ret.panic`).
* A metadata record, a body and the file name list stand for the pointer or
  slice that holds them, except in `RefIndex`, `DocRef`, `AllMetadataRef` and
  `FilenamesRef`, which keep the pointers and slices as heap addresses.
-/

namespace Docindex

/-! ## Bytes -/

/-- Go's `[]byte`. -/
abbrev Bytes := List UInt8

/-- The UTF-8 bytes of a string literal, `[]byte(s)`. -/
def bytesOf (s : String) : Bytes := s.toUTF8.data.toList

/-- Search of `bytes.Index`: the offset, counted from `i`, of the first
position at which `sep` is a prefix of the rest of `s`, and `-1` when there is
none. -/
def indexFrom (sep : Bytes) : Bytes → Nat → Int
  | [], i => if sep = [] then (i : Int) else -1
  | c :: t, i => if sep.isPrefixOf (c :: t) then (i : Int) else indexFrom sep t (i + 1)

/-- Go's `bytes.Index(s, sep)`: the index of the first instance of `sep` in
`s`, or `-1` if `sep` is not present in `s`. -/
def bytesIndex (s sep : Bytes) : Int := indexFrom sep s 0

/-- The delimiter of `loadFile`: `delim := []byte("\n\n")`. -/
def delim : Bytes := [10, 10]

/-- Outcome of the Go slice expression `data[low:]` for an integer `low`:
`none` is the run-time panic "slice bounds out of range", which Go raises
unless `0 ≤ low ≤ len(data)`. -/
def sliceFrom (data : Bytes) (low : Int) : Option Bytes :=
  if 0 ≤ low ∧ low ≤ (data.length : Int) then some (data.drop low.toNat) else none

/-- The Go slice expression `data[:high]` for `0 ≤ high ≤ len(data)`. -/
def sliceTo (data : Bytes) (high : Int) : Bytes := data.take high.toNat

/-! ## Maps -/

/-- A Go `map[string]V`: an association list, one entry per key. -/
abbrev GoMap (V : Type) := List (String × V)

namespace GoMap

variable {V : Type}

/-- The map built by `make(map[string]V)`. -/
def empty : GoMap V := []

/-- The lookup `v, ok := m[k]`. -/
def get? : GoMap V → String → Option V
  | [], _ => none
  | (k', v) :: t, k => if k' = k then some v else get? t k

/-- The assignment `m[k] = v`. -/
def set : GoMap V → String → V → GoMap V
  | [], k, v => [(k, v)]
  | (k', v') :: t, k, v => if k' = k then (k, v) :: t else (k', v') :: set t k v

/-- The keys of the map, in the order in which they are stored. -/
def keys (m : GoMap V) : List String := m.map Prod.fst

end GoMap

/-- One order in which a `range` loop may visit the keys of a map: any
rearrangement of them. -/
structure RangeOrder where
  /-- The order chosen for a given list of keys. -/
  perm : List String → List String
  /-- It is a rearrangement of the keys. -/
  isPerm : ∀ l, (perm l).Perm l

/-- The order in which the keys are stored. -/
def RangeOrder.stored : RangeOrder := ⟨id, fun l => List.Perm.refl l⟩

/-- The reverse of the order in which the keys are stored. -/
def RangeOrder.reversed : RangeOrder := ⟨List.reverse, fun l => List.reverse_perm l⟩

/-- The comparison `a <= b` of two Go strings, character by character. -/
def strLe (a b : String) : Prop := a.toList ≤ b.toList

instance strLeDecidable : DecidableRel strLe :=
  fun a b => inferInstanceAs (Decidable (a.toList ≤ b.toList))

/-- Go's `sort.Strings`: the strings in increasing order. -/
def sortStrings (l : List String) : List String := l.insertionSort strLe

/-! ## Errors and outcomes -/

/-- An error of package `os` or `path/filepath`, by its message. -/
structure OsError where
  /-- The text of the error. -/
  msg : String
  deriving DecidableEq, Repr

/-- An error of `json.Unmarshal`, by its message. -/
structure JsonError where
  /-- The text of the error. -/
  msg : String
  deriving DecidableEq, Repr

/-- The values of Go's `error` interface that the package returns. -/
inductive GoError where
  /-- An error of `os.Stat`, `filepath.Walk` or `ioutil.ReadFile`. -/
  | os (e : OsError)
  /-- The error `fmt.Errorf("not a directory: %q", dir)` of `Open`. -/
  | notADirectory (dir : String)
  /-- An error of `json.Unmarshal`. -/
  | json (e : JsonError)
  /-- The error `notFoundError{file}` of `Doc`. -/
  | notFoundError (file : String)
  deriving DecidableEq, Repr

/-- How a call of a function of result type `error` ends. -/
inductive Ret where
  /-- It returns `nil`. -/
  | nil
  /-- It returns the error `e`. -/
  | error (e : GoError)
  /-- It does not return: a run-time panic unwinds the call. -/
  | panic (msg : String)
  deriving DecidableEq, Repr

/-- Go's `IsNotFound`: `_, ok := err.(notFoundError); return ok`. -/
def IsNotFound : GoError → Bool
  | .notFoundError _ => true
  | _ => false

/-! ## The external world -/

/-- One call that `filepath.Walk` makes to its callback. -/
inductive WalkEntry where
  /-- The call `fn(path, fi, nil)`; `isRegular` is `fi.Mode().IsRegular()`. -/
  | info (path : String) (isRegular : Bool)
  /-- The call `fn(path, fi, err)` with `err != nil`. -/
  | failed (path : String) (err : OsError)
  deriving DecidableEq, Repr

/-- What the file system answers. -/
structure FileSystem where
  /-- The call `os.Stat(dir)`: an error, or `fi.IsDir()`. -/
  stat : String → Except OsError Bool
  /-- The calls that `filepath.Walk(root, fn)` makes to `fn`, in order, for as
  long as `fn` returns `nil`. -/
  walk : String → List WalkEntry
  /-- The call `ioutil.ReadFile(file)`. -/
  readFile : String → Except OsError Bytes

/-- The metadata type fixed by `Open`, `reflect.TypeOf(metadataType)`, for
records of type `M`. -/
structure MetaType (M : Type) where
  /-- The zero value, `reflect.Zero(metaType)`, also what `reflect.New` points to. -/
  zero : M
  /-- The decoder `json.Unmarshal(md, mdObjPtr)` into a new zero record. -/
  unmarshal : Bytes → Except JsonError M

/-! ## The index -/

/-- Go's `Index`. -/
structure Index (M : Type) where
  /-- The root directory. -/
  dir : String
  /-- The metadata type. -/
  metaType : MetaType M
  /-- Metadata by file name, for the files that have it. -/
  docMeta : GoMap M
  /-- Body by file name. -/
  docData : GoMap Bytes
  /-- The cached list of file names. -/
  filenames : List String

variable {M : Type}

/-- Go's `(*Index).loadFile`: the index afterwards and how the call ends. -/
def loadFile (fs : FileSystem) (idx : Index M) (file : String) : Index M × Ret :=
  match fs.readFile file with
  | .error err => (idx, .error (.os err))
  | .ok data =>
    let mdStart := bytesIndex data delim
    if 0 ≤ mdStart then
      let md := sliceTo data mdStart
      match idx.metaType.unmarshal md with
      | .error err => (idx, .error (.json err))
      | .ok mdObj =>
        let idx1 := { idx with docMeta := idx.docMeta.set file mdObj }
        match sliceFrom data (mdStart + (delim.length : Int)) with
        | none => (idx1, .panic "slice bounds out of range")
        | some body => ({ idx1 with docData := idx1.docData.set file body }, .nil)
    else
      match sliceFrom data (mdStart + (delim.length : Int)) with
      | none => (idx, .panic "slice bounds out of range")
      | some body => ({ idx with docData := idx.docData.set file body }, .nil)

/-- The callback that `Reload` passes to `filepath.Walk`. -/
def walkFn (fs : FileSystem) (idx : Index M) : WalkEntry → Index M × Ret
  | .failed _ err => (idx, .error (.os err))
  | .info path isRegular => if isRegular then loadFile fs idx path else (idx, .nil)

/-- The call `filepath.Walk(idx.dir, fn)` over the entries it visits: it stops
at the first call of the callback that does not return `nil`. -/
def walkLoop (fs : FileSystem) (idx : Index M) : List WalkEntry → Index M × Ret
  | [] => (idx, .nil)
  | e :: rest =>
    match walkFn fs idx e with
    | (idx1, .nil) => walkLoop fs idx1 rest
    | (idx1, r) => (idx1, r)

/-- Go's `(*Index).Reload`: the index afterwards and how the call ends. -/
def Reload (ro : RangeOrder) (fs : FileSystem) (idx : Index M) : Index M × Ret :=
  let idx0 := { idx with docMeta := GoMap.empty, docData := GoMap.empty }
  match walkLoop fs idx0 (fs.walk idx0.dir) with
  | (idx1, .nil) =>
    ({ idx1 with filenames := sortStrings (ro.perm idx1.docData.keys) }, .nil)
  | (idx1, r) => (idx1, r)

/-- Go's `Open`: the index returned (`none` is `nil`) and how the call ends. -/
def Open (ro : RangeOrder) (fs : FileSystem) (dir : String) (metadataType : MetaType M) :
    Option (Index M) × Ret :=
  match fs.stat dir with
  | .error err => (none, .error (.os err))
  | .ok isDir =>
    if !isDir then (none, .error (.notADirectory dir))
    else
      let idx : Index M :=
        { dir := dir, metaType := metadataType, docMeta := [], docData := [], filenames := [] }
      match Reload ro fs idx with
      | (idx1, .nil) => (some idx1, .nil)
      | (_, r) => (none, r)

/-- The index that `Open` makes before its call of `Reload`:
`&Index{dir: dir, metaType: reflect.TypeOf(metadataType)}`. -/
def Index.init (dir : String) (metadataType : MetaType M) : Index M :=
  { dir := dir, metaType := metadataType, docMeta := [], docData := [], filenames := [] }

/-- Go's `(*Index).Filenames`. -/
def Filenames (idx : Index M) : List String := idx.filenames

/-- The record that `AllMetadata` and `Doc` report for a file name: the
stored one, and the zero value of the metadata type when there is none. -/
def metaOrZero (idx : Index M) (filename : String) : M :=
  match idx.docMeta.get? filename with
  | some m => m
  | none => idx.metaType.zero

/-- The loop of `AllMetadata` over `idx.Filenames()`. -/
def allMetadataLoop (idx : Index M) : List String → GoMap M → GoMap M
  | [], metaMap => metaMap
  | filename :: rest, metaMap =>
    allMetadataLoop idx rest (metaMap.set filename (metaOrZero idx filename))

/-- Go's `(*Index).AllMetadata`: the contents of the caller's map afterwards;
`metaMap = none` is a nil map, on which the call panics (result `none`). -/
def AllMetadata (idx : Index M) (metaMap : Option (GoMap M)) : Option (GoMap M) :=
  match metaMap with
  | none => none
  | some m => some (allMetadataLoop idx (Filenames idx) m)

/-- Go's `(*Index).Doc`: the result (the body, or the error with no body) and
the contents of the caller's record `meta` afterwards (`none` is a nil
pointer, which is left alone). -/
def Doc (idx : Index M) (filename : String) (meta : Option M) :
    Except GoError Bytes × Option M :=
  match idx.docData.get? filename with
  | none => (.error (.notFoundError filename), meta)
  | some data =>
    match meta with
    | none => (.ok data, none)
    | some _ => (.ok data, some (metaOrZero idx filename))

/-- What a call of `loadFile` that returns `nil` records for `file`: the
decoded metadata, if the content has a delimiter, and the body. -/
def loadedDoc (fs : FileSystem) (mt : MetaType M) (file : String) : Option (Option M × Bytes) :=
  match fs.readFile file with
  | .error _ => none
  | .ok data =>
    let mdStart := bytesIndex data delim
    match sliceFrom data (mdStart + (delim.length : Int)) with
    | none => none
    | some body =>
      if 0 ≤ mdStart then
        match mt.unmarshal (sliceTo data mdStart) with
        | .error _ => none
        | .ok m => some (some m, body)
      else some (none, body)

/-- Every entry of the two maps is what `loadFile` records for its file, and
only files with a body have metadata. -/
def Recorded (fs : FileSystem) (idx : Index M) : Prop :=
  ∀ p, match idx.docData.get? p with
    | none => idx.docMeta.get? p = none
    | some body => ∃ md, loadedDoc fs idx.metaType p = some (md, body) ∧ idx.docMeta.get? p = md

/-- The file name list is the sorted list of the keys of the body map. -/
def Consistent (idx : Index M) : Prop :=
  idx.filenames = sortStrings idx.docData.keys ∧ idx.docData.keys.Nodup

/-- The index `idx` is the one that a successful `Open` returned, or that a
successful `Reload` left, on the file system `fs`. -/
def Loaded (fs : FileSystem) (idx : Index M) : Prop :=
  (∃ ro dir mt, Open ro fs dir mt = (some idx, .nil)) ∨
  (∃ ro idx0, Reload ro fs idx0 = (idx, .nil))

/-- One call of a public operation on an index, with its arguments. -/
inductive Op (M : Type) where
  /-- The call `idx.Reload()`, on the file system as it is at that time. -/
  | reload (ro : RangeOrder) (fs : FileSystem)
  /-- The call `idx.Doc(filename, meta)`. -/
  | doc (filename : String) (meta : Option M)
  /-- The call `idx.AllMetadata(metaMap)`. -/
  | allMetadata (metaMap : Option (GoMap M))
  /-- The call `idx.Filenames()`. -/
  | filenames

/-- The effect of one call on the index: the index afterwards, paired with
whether the most recent `Reload` so far returned `nil`. Only `Reload` assigns
to the fields of the index. -/
def step (s : Index M × Bool) : Op M → Index M × Bool
  | .reload ro fs => ((Reload ro fs s.1).1, decide ((Reload ro fs s.1).2 = .nil))
  | .doc _ _ => s
  | .allMetadata _ => s
  | .filenames => s

/-- The effect of a sequence of calls, from left to right. -/
def run (s : Index M × Bool) (ops : List (Op M)) : Index M × Bool := ops.foldl step s

/-- Every key of the metadata map is a key of the body map. -/
def MetaWithinData (idx : Index M) : Prop :=
  ∀ p, p ∈ idx.docMeta.keys → p ∈ idx.docData.keys

/-- Go's `os.IsNotExist` on the errors of the package. For an error of package
`os` the answer is the one of the library, `osNotExist`; the other errors,
made by `fmt.Errorf`, `json.Unmarshal` and `Doc`, do not report a missing
file. -/
def IsNotExist (osNotExist : OsError → Bool) : GoError → Bool
  | .os e => osNotExist e
  | .notADirectory _ => false
  | .json _ => false
  | .notFoundError _ => false

/-- The calls that `filepath.Walk(root, fn)` makes for a root directory whose
tree holds `entries`, each given by its path relative to the root and by
whether it is a regular file, in the order of the walk: first the root itself,
then every entry under the path `filepath.Join(root, rel)`, here `join root rel`. -/
def walkOf (join : String → String → String) (root : String)
    (entries : List (String × Bool)) : List WalkEntry :=
  .info root false :: entries.map (fun e => .info (join root e.1) e.2)

/-- The decode error of the file `p`, if its content has a delimiter and the
segment before it does not decode into the metadata type. -/
def decodeFailure (fs : FileSystem) (mt : MetaType M) (p : String) : Option JsonError :=
  match fs.readFile p with
  | .error _ => none
  | .ok data =>
    if 0 ≤ bytesIndex data delim then
      match mt.unmarshal (sliceTo data (bytesIndex data delim)) with
      | .error err => some err
      | .ok _ => none
    else none

/-- The decode error of the first regular file, in the order of the walk,
that has one. -/
def firstDecodeFailure (fs : FileSystem) (mt : MetaType M) : List WalkEntry → Option JsonError
  | [] => none
  | .info p true :: rest =>
    match decodeFailure fs mt p with
    | some err => some err
    | none => firstDecodeFailure fs mt rest
  | _ :: rest => firstDecodeFailure fs mt rest

/-! ## The index as Go holds it: behind pointers and slices

`docMeta` is a `map[string]interface{}` whose values are the pointers made by
`reflect.New(idx.metaType)`, `docData` holds byte slices and `filenames` is a
string slice. `AllMetadata` stores the stored pointers themselves in the map
of its caller, `Doc` writes through the pointer `meta` of its caller and
returns `idx.docData[filename]` itself, and `Filenames` returns
`idx.filenames` itself. The definitions above replace each pointer and slice
by what it refers to. The definitions of this section keep them, as addresses
of heap cells, to tell which cells a call writes and which cells it hands to
its caller. -/

/-- The heap: the cells that hold metadata records, the arrays behind byte
slices and the arrays behind string slices. A pointer or a slice is the
position of its cell; a slice spans its whole array. -/
structure Heap (M : Type) where
  /-- The metadata records, by pointer. -/
  records : List M
  /-- The arrays of the byte slices. -/
  bytes : List Bytes
  /-- The arrays of the string slices. -/
  strings : List (List String)

/-- Go's `Index`, holding pointers and slices. -/
structure RefIndex (M : Type) where
  /-- The root directory. -/
  dir : String
  /-- The metadata type. -/
  metaType : MetaType M
  /-- The pointer to the metadata record, by file name. -/
  docMeta : GoMap Nat
  /-- The byte slice of the body, by file name. -/
  docData : GoMap Nat
  /-- The string slice of the cached file names. -/
  filenames : Nat

/-- The index with every pointer and slice replaced by what it refers to in
`heap`. -/
def RefIndex.deref (idx : RefIndex M) (heap : Heap M) : Index M :=
  { dir := idx.dir
    metaType := idx.metaType
    docMeta := idx.docMeta.map (fun e => (e.1, heap.records.getD e.2 idx.metaType.zero))
    docData := idx.docData.map (fun e => (e.1, heap.bytes.getD e.2 []))
    filenames := heap.strings.getD idx.filenames [] }

/-- Go's `(*Index).Filenames`, on the index with pointers: `return
idx.filenames`, the slice itself. -/
def FilenamesRef (idx : RefIndex M) : Nat := idx.filenames

/-- Go's `(*Index).Doc`, on the index with pointers: the result, which is the
stored byte slice `idx.docData[filename]` itself, and the heap afterwards. The
pointer `meta` of the caller is `none` when it is nil;
`metaV.Set(reflect.ValueOf(docMeta).Elem())` copies the stored record into the
cell that `meta` points to. -/
def DocRef (idx : RefIndex M) (heap : Heap M) (filename : String) (meta : Option Nat) :
    Except GoError Nat × Heap M :=
  match idx.docData.get? filename with
  | none => (.error (.notFoundError filename), heap)
  | some data =>
    match meta with
    | none => (.ok data, heap)
    | some out =>
      match idx.docMeta.get? filename with
      | some docMeta =>
        (.ok data,
          { heap with
            records := heap.records.set out (heap.records.getD docMeta idx.metaType.zero) })
      | none => (.ok data, { heap with records := heap.records.set out idx.metaType.zero })

/-- The loop of `AllMetadata`, on the index with pointers: the map of the
caller receives the stored pointer itself, or a pointer to a new zero record
made by `reflect.New(idx.metaType)`. -/
def allMetadataRefLoop (idx : RefIndex M) : List String → GoMap Nat × Heap M → GoMap Nat × Heap M
  | [], s => s
  | filename :: rest, (metaMap, heap) =>
    match idx.docMeta.get? filename with
    | some docMeta => allMetadataRefLoop idx rest (metaMap.set filename docMeta, heap)
    | none =>
      allMetadataRefLoop idx rest
        (metaMap.set filename heap.records.length,
          { heap with records := heap.records ++ [idx.metaType.zero] })

/-- Go's `(*Index).AllMetadata`, on the index with pointers: the map of the
caller afterwards (`none` after the panic on a nil map) and the heap
afterwards. The loop ranges over the slice that `idx.Filenames()` returns. -/
def AllMetadataRef (idx : RefIndex M) (heap : Heap M) (metaMap : Option (GoMap Nat)) :
    Option (GoMap Nat) × Heap M :=
  match metaMap with
  | none => (none, heap)
  | some m =>
    (some (allMetadataRefLoop idx (heap.strings.getD (FilenamesRef idx) []) (m, heap)).1,
      (allMetadataRefLoop idx (heap.strings.getD (FilenamesRef idx) []) (m, heap)).2)

/-- The assignment `s[i] = b` of a caller to an element of a byte slice. -/
def writeByte (heap : Heap M) (s i : Nat) (b : UInt8) : Heap M :=
  { heap with bytes := heap.bytes.set s ((heap.bytes.getD s []).set i b) }

/-- The assignment `s[i] = v` of a caller to an element of a string slice. -/
def writeString (heap : Heap M) (s i : Nat) (v : String) : Heap M :=
  { heap with strings := heap.strings.set s ((heap.strings.getD s []).set i v) }

/-! ## The accesses of each operation to the index, and the mutex

Each public operation is followed statement by statement, recording when it
locks and unlocks `docsLock` and when it reads or assigns a field of the
index. -/

/-- The fields of `Index` that the mutex `docsLock` is there to guard, and the
two fields set once by `Open`. -/
inductive Field where
  /-- The field `dir`. -/
  | dir
  /-- The field `metaType`. -/
  | metaType
  /-- The field `docMeta`. -/
  | docMeta
  /-- The field `docData`. -/
  | docData
  /-- The field `filenames`. -/
  | filenames
  deriving DecidableEq, Repr

/-- What an operation does to the mutex and to the fields of the index. -/
inductive Event where
  /-- The call `idx.docsLock.Lock()`. -/
  | lock
  /-- The call `idx.docsLock.Unlock()`, deferred to the end of the operation. -/
  | unlock
  /-- A read of a field, or of what it holds. -/
  | read (f : Field)
  /-- An assignment to a field, or into what it holds. -/
  | write (f : Field)
  deriving DecidableEq, Repr

/-- The events of `loadFile`: `reflect.New(idx.metaType)` reads the metadata
type when a delimiter was found; then come the assignments to the two maps,
as far as the call gets. -/
def loadFileEvents (fs : FileSystem) (idx : Index M) (file : String) : List Event :=
  match fs.readFile file with
  | .error _ => []
  | .ok data =>
    let mdStart := bytesIndex data delim
    if 0 ≤ mdStart then
      .read .metaType ::
        match idx.metaType.unmarshal (sliceTo data mdStart) with
        | .error _ => []
        | .ok _ =>
          .write .docMeta ::
            match sliceFrom data (mdStart + (delim.length : Int)) with
            | none => []
            | some _ => [.write .docData]
    else
      match sliceFrom data (mdStart + (delim.length : Int)) with
      | none => []
      | some _ => [.write .docData]

/-- The events of the callback that `Reload` passes to `filepath.Walk`. -/
def walkFnEvents (fs : FileSystem) (idx : Index M) : WalkEntry → List Event
  | .failed _ _ => []
  | .info path isRegular => if isRegular then loadFileEvents fs idx path else []

/-- The events of the walk, which stops at the first call of the callback that
does not return `nil`. -/
def walkLoopEvents (fs : FileSystem) (idx : Index M) : List WalkEntry → List Event
  | [] => []
  | e :: rest =>
    walkFnEvents fs idx e ++
      match walkFn fs idx e with
      | (idx1, .nil) => walkLoopEvents fs idx1 rest
      | _ => []

/-- The events of `Reload`: the lock, the two assignments of new maps, the
read of `idx.dir` for the walk, the walk, then, when the walk returned `nil`,
`idx.filenames = make([]string, len(idx.docData))`, the loop that ranges
over `idx.docData` and fills `idx.filenames`, and `sort.Strings(idx.filenames)`;
last the deferred unlock, also after an error or a panic. -/
def ReloadEvents (fs : FileSystem) (idx : Index M) : List Event :=
  [.lock, .write .docMeta, .write .docData, .read .dir] ++
    walkLoopEvents fs { idx with docMeta := GoMap.empty, docData := GoMap.empty } (fs.walk idx.dir) ++
    (match walkLoop fs { idx with docMeta := GoMap.empty, docData := GoMap.empty }
        (fs.walk idx.dir) with
      | (_, .nil) =>
        [.read .docData, .write .filenames, .read .docData, .write .filenames,
          .read .filenames, .write .filenames]
      | _ => []) ++
    [.unlock]

/-- The events of `Filenames`: `return idx.filenames`, with no call of
`Lock`. -/
def FilenamesEvents : List Event := [.read .filenames]

/-- The events of `Doc`: the lock, the lookup in `idx.docData`, then for a
known file name and a non-nil `meta` the lookup in `idx.docMeta`, and the read
of `idx.metaType` when there is no stored metadata, then the read of
`idx.docData[filename]` for the result; last the deferred unlock. -/
def DocEvents (idx : Index M) (filename : String) (meta : Option M) : List Event :=
  [.lock, .read .docData] ++
    (match idx.docData.get? filename with
      | none => []
      | some _ =>
        (match meta with
          | none => []
          | some _ =>
            .read .docMeta ::
              match idx.docMeta.get? filename with
              | some _ => []
              | none => [.read .metaType]) ++
          [.read .docData]) ++
    [.unlock]

/-- The events of the loop of `AllMetadata`. -/
def allMetadataLoopEvents (idx : Index M) : List String → List Event
  | [] => []
  | filename :: rest =>
    (.read .docMeta ::
      match idx.docMeta.get? filename with
      | some _ => []
      | none => [.read .metaType]) ++ allMetadataLoopEvents idx rest

/-- The events of `AllMetadata`: the lock, then for a non-nil map the call
`idx.Filenames()`, made while the mutex is held, and the loop; last the
deferred unlock, also after the panic on a nil map. -/
def AllMetadataEvents (idx : Index M) (metaMap : Option (GoMap M)) : List Event :=
  .lock ::
    (match metaMap with
      | none => []
      | some _ => FilenamesEvents ++ allMetadataLoopEvents idx (Filenames idx)) ++
    [.unlock]

/-- Whether a sequence of events of one operation, started with the mutex held
by it or not, locks before it reads or writes, never locks twice, and ends with
the mutex released. -/
def guardedFrom : Bool → List Event → Bool
  | held, [] => !held
  | held, .lock :: rest => !held && guardedFrom true rest
  | held, .unlock :: rest => held && guardedFrom false rest
  | held, .read _ :: rest => held && guardedFrom held rest
  | held, .write _ :: rest => held && guardedFrom held rest

/-- Whether an operation reads and writes the index only while it holds the
mutex. -/
def Guarded (events : List Event) : Bool := guardedFrom false events

/-- Whether an event is a read or a write. -/
def Event.isAccess : Event → Bool
  | .read _ => true
  | .write _ => true
  | _ => false

/-! ## Test data -/

/-- The metadata type of `TestIndex_Open`: `type Metadata struct { Title string }`. -/
structure Metadata where
  /-- The only field. -/
  Title : String
  deriving DecidableEq, Repr

/-- A stand-in for `json.Unmarshal` into a `Metadata`, defined on the inputs
of the shape `{"Title":"..."}` with a plain ASCII title, and an error on any
other input. -/
def titleUnmarshal (md : Bytes) : Except JsonError Metadata :=
  let pre := bytesOf "\x7b\"Title\":\""
  let suf := bytesOf "\"\x7d"
  if pre.isPrefixOf md ∧ suf.isSuffixOf md ∧ pre.length + suf.length ≤ md.length then
    .ok ⟨String.mk (((md.drop pre.length).take (md.length - pre.length - suf.length)).map
      (fun b => Char.ofNat b.toNat))⟩
  else .error ⟨"invalid character"⟩

/-- The metadata type `Metadata{}` passed to `Open` by the test. -/
def testMeta : MetaType Metadata := ⟨⟨""⟩, titleUnmarshal⟩

/-- A file system whose only directory tree is rooted at `root` and holds the
regular files `files` (path below the root, content), all directly readable. -/
def flatFS (root : String) (files : List (String × Bytes)) : FileSystem where
  stat p := if p = root then .ok true else .error ⟨"no such file or directory"⟩
  walk r :=
    if r = root then
      .info root false :: files.map (fun f => .info (root ++ "/" ++ f.1) true)
    else [.failed r ⟨"no such file or directory"⟩]
  readFile p :=
    match files.find? (fun f => root ++ "/" ++ f.1 = p) with
    | some f => .ok f.2
    | none => .error ⟨"no such file or directory"⟩

/-- The content of `testdata/foo.txt`: the line `{"Title":"foo"}`, a blank
line, and the line `Hello from foo.` -/
def fooContent : Bytes := bytesOf "\x7b\"Title\":\"foo\"\x7d\n\nHello from foo.\n"

/-- The content of `testdata/subdir/bar.txt`: the line `{"Title":"bar"}`, a
blank line, and the line `This is bar.` -/
def barContent : Bytes := bytesOf "\x7b\"Title\":\"bar\"\x7d\n\nThis is bar.\n"

/-- The directory `testdata` of the test: `foo.txt` and `subdir/bar.txt`. -/
def testFS : FileSystem where
  stat p :=
    if p = "testdata" ∨ p = "testdata/subdir" then .ok true
    else if p = "testdata/foo.txt" ∨ p = "testdata/subdir/bar.txt" then .ok false
    else .error ⟨"no such file or directory"⟩
  walk root :=
    if root = "testdata" then
      [.info "testdata" false, .info "testdata/foo.txt" true,
       .info "testdata/subdir" false, .info "testdata/subdir/bar.txt" true]
    else [.failed root ⟨"no such file or directory"⟩]
  readFile p :=
    if p = "testdata/foo.txt" then .ok fooContent
    else if p = "testdata/subdir/bar.txt" then
      .ok barContent
    else .error ⟨"no such file or directory"⟩


/-- The index that `Open("testdata", Metadata{})` returns in the test. -/
def testIndex : Index Metadata :=
  (Reload RangeOrder.stored testFS
    { dir := "testdata", metaType := testMeta, docMeta := [], docData := [], filenames := [] }).1

/-- A directory `docs` whose only file `a.txt` holds `abc`, without a blank line. -/
def plainFS : FileSystem := flatFS "docs" [("a.txt", bytesOf "abc")]

/-- The index that `Open("docs", Metadata{})` returns on `plainFS`. -/
def plainIndex : Index Metadata :=
  (Reload RangeOrder.stored plainFS
    { dir := "docs", metaType := testMeta, docMeta := [], docData := [], filenames := [] }).1

/-- The directory `testdata` at a later time, when `subdir` can no longer be
read: the walk reports the failure after it has visited `foo.txt`. -/
def brokenFS : FileSystem where
  stat := testFS.stat
  walk root :=
    if root = "testdata" then
      [.info "testdata" false, .info "testdata/foo.txt" true,
       .failed "testdata/subdir" ⟨"permission denied"⟩]
    else [.failed root ⟨"no such file or directory"⟩]
  readFile := testFS.readFile

/-- A directory `docs` whose only file `a.txt` is empty. -/
def emptyFS : FileSystem := flatFS "docs" [("a.txt", [])]

/-- A directory `docs` with an empty file `a.txt` and a file `b.txt` whose
metadata segment `x` is not a JSON object. -/
def emptyThenBadFS : FileSystem := flatFS "docs" [("a.txt", []), ("b.txt", bytesOf "x\n\nbody")]

/-- The directory `testdata` at a later time, when `subdir` and its file
`bar.txt` have been removed. -/
def shrunkFS : FileSystem := flatFS "testdata" [("foo.txt", fooContent)]

/-- The path `filepath.Join(d, p)` for a clean root `d` other than `.` and a
clean relative path `p`: the two joined by a slash. -/
def slashJoin (d p : String) : String := d ++ "/" ++ p

/-- The index of the test directory with its pointers and slices: for
`foo.txt` the record and the body are in the cells 0, for `subdir/bar.txt` in
the cells 1, and the file name list is in the cell 0 of the string slices. -/
def testRefIndex : RefIndex Metadata :=
  { dir := "testdata"
    metaType := testMeta
    docMeta := [("testdata/foo.txt", 0), ("testdata/subdir/bar.txt", 1)]
    docData := [("testdata/foo.txt", 0), ("testdata/subdir/bar.txt", 1)]
    filenames := 0 }

/-- The heap after `Open` on the test directory: the two decoded records, the
two bodies and the sorted list of file names. -/
def testHeap : Heap Metadata :=
  { records := [⟨"foo"⟩, ⟨"bar"⟩]
    bytes := [bytesOf "Hello from foo.\n", bytesOf "This is bar.\n"]
    strings := [["testdata/foo.txt", "testdata/subdir/bar.txt"]] }

/-- The heap of the test directory with one more record, a variable of the
caller holding `Title = "old"`, in the cell 2. -/
def callerHeap : Heap Metadata :=
  { testHeap with records := [⟨"foo"⟩, ⟨"bar"⟩, ⟨"old"⟩] }

/-! ## Lemmas on maps -/

namespace GoMap

variable {V : Type}

theorem get?_set_self (m : GoMap V) (k : String) (v : V) : (m.set k v).get? k = some v := by
  induction m with
  | nil => simp [set, get?]
  | cons hd t ih =>
    obtain ⟨k', v'⟩ := hd
    by_cases h : k' = k
    · simp [set, get?, h]
    · simp [set, get?, h, ih]

theorem get?_set_other (m : GoMap V) {k j : String} (v : V) (h : k ≠ j) :
    (m.set k v).get? j = m.get? j := by
  induction m with
  | nil => simp [set, get?, h]
  | cons hd t ih =>
    obtain ⟨k', v'⟩ := hd
    by_cases hk : k' = k
    · subst hk; simp [set, get?, h]
    · by_cases hj : k' = j
      · subst hj; simp [set, get?, hk]
      · simp [set, get?, hk, hj, ih]

theorem keys_set (m : GoMap V) (k : String) (v : V) :
    (m.set k v).keys = if k ∈ m.keys then m.keys else m.keys ++ [k] := by
  induction m with
  | nil => simp [set, keys]
  | cons hd t ih =>
    obtain ⟨k', v'⟩ := hd
    by_cases hk : k' = k
    · subst hk; simp [set, keys]
    · have hk' : ¬ k = k' := fun h => hk h.symm
      simp only [keys] at ih
      by_cases hmem : k ∈ List.map Prod.fst t
      · simp [set, keys, hk, hk', hmem, ih]
      · simp [set, keys, hk, hk', hmem, ih]

theorem mem_keys_set (m : GoMap V) (k j : String) (v : V) :
    j ∈ (m.set k v).keys ↔ j = k ∨ j ∈ m.keys := by
  rw [keys_set]
  by_cases h : k ∈ m.keys
  · simp only [h, if_true]
    constructor
    · intro hj; exact Or.inr hj
    · rintro (rfl | hj)
      · exact h
      · exact hj
  · simp only [h, if_false, List.mem_append, List.mem_singleton]
    tauto

theorem nodup_keys_set (m : GoMap V) (k : String) (v : V) (h : m.keys.Nodup) :
    (m.set k v).keys.Nodup := by
  rw [keys_set]
  by_cases hk : k ∈ m.keys
  · simpa [hk] using h
  · simp only [hk, if_false]
    exact List.Nodup.append h (List.nodup_singleton k) (by simpa using hk)

theorem get?_eq_none_iff (m : GoMap V) (k : String) : m.get? k = none ↔ k ∉ m.keys := by
  induction m with
  | nil => simp [get?, keys]
  | cons hd t ih =>
    obtain ⟨k', v'⟩ := hd
    simp only [keys] at ih
    by_cases hk : k' = k
    · simp [get?, keys, hk]
    · have hk' : ¬ k = k' := fun h => hk h.symm
      simp [get?, keys, hk, hk', ih]

theorem mem_keys_iff (m : GoMap V) (k : String) : k ∈ m.keys ↔ ∃ v, m.get? k = some v := by
  rw [← Option.isSome_iff_exists, ← not_iff_not, ← get?_eq_none_iff]
  cases m.get? k <;> simp

end GoMap

/-! ## Lemmas on `bytes.Index` -/

theorem indexFrom_of_first (sep : Bytes) (s : Bytes) (i k : Nat)
    (hk : sep <+: s.drop k) (hfirst : ∀ j, j < k → ¬ sep <+: s.drop j) :
    indexFrom sep s i = ((i + k : Nat) : Int) := by
  induction s generalizing i k with
  | nil =>
    have hsep : sep = [] := by simpa using hk
    have hk0 : k = 0 := by
      by_contra hne
      exact hfirst 0 (Nat.pos_of_ne_zero hne) (by simp [hsep])
    simp [indexFrom, hsep, hk0]
  | cons c t ih =>
    by_cases hp : sep <+: c :: t
    · have hk0 : k = 0 := by
        by_contra hne
        exact hfirst 0 (Nat.pos_of_ne_zero hne) (by simpa using hp)
      simp [indexFrom, List.isPrefixOf_iff_prefix, hp, hk0]
    · cases k with
      | zero => exact absurd (by simpa using hk) hp
      | succ k' =>
        have hrec := ih (i + 1) k' (by simpa using hk)
          (fun j hj => by simpa using hfirst (j + 1) (by omega))
        simp only [indexFrom, List.isPrefixOf_iff_prefix, hp]
        simp only [if_false, Bool.false_eq_true] at *
        rw [hrec]; congr 1; omega

theorem indexFrom_of_absent (sep : Bytes) (s : Bytes) (i : Nat) (hne : sep ≠ [])
    (habs : ∀ j, ¬ sep <+: s.drop j) : indexFrom sep s i = -1 := by
  induction s generalizing i with
  | nil => simp [indexFrom, hne]
  | cons c t ih =>
    have hp : ¬ sep <+: c :: t := by simpa using habs 0
    have hrec := ih (i + 1) (fun j => by simpa using habs (j + 1))
    simp [indexFrom, List.isPrefixOf_iff_prefix, hp, hrec]

theorem bytesIndex_of_first (data : Bytes) (k : Nat)
    (hk : delim <+: data.drop k) (hfirst : ∀ j, j < k → ¬ delim <+: data.drop j) :
    bytesIndex data delim = (k : Int) := by
  have h := indexFrom_of_first delim data 0 k hk hfirst
  simpa [bytesIndex] using h

theorem bytesIndex_of_absent (data : Bytes) (habs : ¬ delim <:+: data) :
    bytesIndex data delim = -1 := by
  apply indexFrom_of_absent delim data 0 (by decide)
  intro j hj
  exact habs (hj.isInfix.trans (List.drop_suffix j data).isInfix)

theorem length_of_prefix_drop (data : Bytes) (k : Nat) (hk : delim <+: data.drop k) :
    k + 2 ≤ data.length := by
  have h := hk.length_le
  simp [delim] at h
  omega

/-! ## Lemmas on `sort.Strings` -/

theorem strLe_iff (a b : String) : strLe a b ↔ a ≤ b := String.le_iff_toList_le.symm

theorem strLe_total : IsTotal String strLe :=
  ⟨fun a b => by simpa [strLe_iff] using le_total a b⟩

theorem strLe_trans : IsTrans String strLe :=
  ⟨fun a b c hab hbc => by rw [strLe_iff] at *; exact le_trans hab hbc⟩

theorem strLe_antisymm : IsAntisymm String strLe :=
  ⟨fun a b hab hba => by rw [strLe_iff] at *; exact le_antisymm hab hba⟩

theorem sortStrings_sorted (l : List String) : (sortStrings l).Sorted strLe :=
  haveI := strLe_total
  haveI := strLe_trans
  List.sorted_insertionSort strLe l

theorem sortStrings_perm (l : List String) : (sortStrings l).Perm l :=
  List.perm_insertionSort strLe l

theorem sortStrings_congr {l₁ l₂ : List String} (h : l₁.Perm l₂) :
    sortStrings l₁ = sortStrings l₂ :=
  haveI := strLe_antisymm
  List.eq_of_perm_of_sorted
    (((sortStrings_perm l₁).trans h).trans (sortStrings_perm l₂).symm)
    (sortStrings_sorted l₁) (sortStrings_sorted l₂)

theorem mem_sortStrings (l : List String) (s : String) : s ∈ sortStrings l ↔ s ∈ l :=
  (sortStrings_perm l).mem_iff

theorem sortStrings_strict (l : List String) (h : l.Nodup) :
    (sortStrings l).Sorted (· < ·) := by
  have hs := sortStrings_sorted l
  have hn : (sortStrings l).Nodup := (sortStrings_perm l).nodup_iff.mpr h
  rw [List.Sorted, List.pairwise_iff_get] at *
  intro i j hij
  have hle := (strLe_iff _ _).mp (hs i j hij)
  refine lt_of_le_of_ne hle ?_
  intro heq
  have := (List.Nodup.get_inj_iff hn).mp heq
  exact absurd this (ne_of_lt hij)


/-! ## Lemmas on `loadFile` and the walk -/

section Walk

variable {M : Type}

theorem loadFile_nil (fs : FileSystem) (idx idx' : Index M) (file : String)
    (h : loadFile fs idx file = (idx', .nil)) :
    ∃ md body, loadedDoc fs idx.metaType file = some (md, body) ∧
      idx' = { idx with
        docMeta := (match md with
          | some m => idx.docMeta.set file m
          | none => idx.docMeta),
        docData := idx.docData.set file body } := by
  unfold loadFile at h
  unfold loadedDoc
  cases hr : fs.readFile file with
  | error err => simp [hr] at h
  | ok data =>
    simp only [hr] at h ⊢
    by_cases hs : 0 ≤ bytesIndex data delim
    · simp only [hs, if_true] at h ⊢
      cases hu : idx.metaType.unmarshal (sliceTo data (bytesIndex data delim)) with
      | error err => simp [hu] at h
      | ok m =>
        simp only [hu] at h ⊢
        cases hb : sliceFrom data (bytesIndex data delim + (delim.length : Int)) with
        | none => simp [hb] at h
        | some body =>
          simp only [hb, Prod.mk.injEq, and_true] at h ⊢
          exact ⟨some m, body, rfl, h.symm⟩
    · simp only [hs, if_false] at h ⊢
      cases hb : sliceFrom data (bytesIndex data delim + (delim.length : Int)) with
      | none => simp [hb] at h
      | some body =>
        simp only [hb, Prod.mk.injEq, and_true] at h ⊢
        exact ⟨none, body, rfl, h.symm⟩

theorem loadFile_error (fs : FileSystem) (idx idx' : Index M) (file : String) (e : GoError)
    (h : loadFile fs idx file = (idx', .error e)) : idx' = idx ∧ IsNotFound e = false := by
  unfold loadFile at h
  cases hr : fs.readFile file with
  | error err =>
    simp only [hr, Prod.mk.injEq, Ret.error.injEq] at h
    obtain ⟨h1, h2⟩ := h
    subst h1 h2
    exact ⟨rfl, rfl⟩
  | ok data =>
    simp only [hr] at h
    by_cases hs : 0 ≤ bytesIndex data delim
    · simp only [hs, if_true] at h
      cases hu : idx.metaType.unmarshal (sliceTo data (bytesIndex data delim)) with
      | error err =>
        simp only [hu, Prod.mk.injEq, Ret.error.injEq] at h
        obtain ⟨h1, h2⟩ := h
        subst h1 h2
        exact ⟨rfl, rfl⟩
      | ok m =>
        simp only [hu] at h
        cases hb : sliceFrom data (bytesIndex data delim + (delim.length : Int)) <;>
          simp [hb] at h
    · simp only [hs, if_false] at h
      cases hb : sliceFrom data (bytesIndex data delim + (delim.length : Int)) <;>
        simp [hb] at h

theorem loadFile_frame (fs : FileSystem) (idx : Index M) (file : String) :
    (loadFile fs idx file).1.dir = idx.dir ∧
    (loadFile fs idx file).1.metaType = idx.metaType ∧
    (loadFile fs idx file).1.filenames = idx.filenames := by
  unfold loadFile
  cases fs.readFile file with
  | error err => exact ⟨rfl, rfl, rfl⟩
  | ok data =>
    simp only
    by_cases hs : 0 ≤ bytesIndex data delim
    · simp only [hs, if_true]
      cases idx.metaType.unmarshal (sliceTo data (bytesIndex data delim)) with
      | error err => exact ⟨rfl, rfl, rfl⟩
      | ok m =>
        simp only
        cases sliceFrom data (bytesIndex data delim + (delim.length : Int)) <;>
          exact ⟨rfl, rfl, rfl⟩
    · simp only [hs, if_false]
      cases sliceFrom data (bytesIndex data delim + (delim.length : Int)) <;>
        exact ⟨rfl, rfl, rfl⟩

theorem walkFn_frame (fs : FileSystem) (idx : Index M) (e : WalkEntry) :
    (walkFn fs idx e).1.dir = idx.dir ∧
    (walkFn fs idx e).1.metaType = idx.metaType ∧
    (walkFn fs idx e).1.filenames = idx.filenames := by
  cases e with
  | failed p err => exact ⟨rfl, rfl, rfl⟩
  | info p isRegular =>
    cases isRegular with
    | false => exact ⟨rfl, rfl, rfl⟩
    | true => simpa [walkFn] using loadFile_frame fs idx p

theorem walkLoop_cons (fs : FileSystem) (idx : Index M) (e : WalkEntry) (rest : List WalkEntry) :
    walkLoop fs idx (e :: rest) =
      if (walkFn fs idx e).2 = .nil then walkLoop fs (walkFn fs idx e).1 rest
      else walkFn fs idx e := by
  rw [walkLoop]
  rcases hw : walkFn fs idx e with ⟨idx1, r⟩
  cases r <;> simp

theorem walkLoop_frame (fs : FileSystem) (idx : Index M) (es : List WalkEntry) :
    (walkLoop fs idx es).1.dir = idx.dir ∧
    (walkLoop fs idx es).1.metaType = idx.metaType ∧
    (walkLoop fs idx es).1.filenames = idx.filenames := by
  induction es generalizing idx with
  | nil => exact ⟨rfl, rfl, rfl⟩
  | cons e rest ih =>
    rw [walkLoop_cons]
    have hf := walkFn_frame fs idx e
    by_cases hr : (walkFn fs idx e).2 = .nil
    · simp only [hr, if_true]
      have h := ih (walkFn fs idx e).1
      exact ⟨h.1.trans hf.1, h.2.1.trans hf.2.1, h.2.2.trans hf.2.2⟩
    · simp only [hr, if_false]
      exact hf

end Walk


section WalkInvariants

variable {M : Type}

theorem walkFn_nil (fs : FileSystem) (idx idx' : Index M) (e : WalkEntry)
    (h : walkFn fs idx e = (idx', .nil)) :
    (∃ p, e = .info p false ∧ idx' = idx) ∨
    (∃ p, e = .info p true ∧ loadFile fs idx p = (idx', .nil)) := by
  cases e with
  | failed p err => simp [walkFn] at h
  | info p isRegular =>
    cases isRegular with
    | false =>
      simp only [walkFn, Bool.false_eq_true, if_false, Prod.mk.injEq, and_true] at h
      exact Or.inl ⟨p, rfl, h.symm⟩
    | true =>
      simp only [walkFn, if_true] at h
      exact Or.inr ⟨p, rfl, h⟩

theorem walkFn_error (fs : FileSystem) (idx idx' : Index M) (e : WalkEntry) (err : GoError)
    (h : walkFn fs idx e = (idx', .error err)) : idx' = idx ∧ IsNotFound err = false := by
  cases e with
  | failed p oserr =>
    simp only [walkFn, Prod.mk.injEq, Ret.error.injEq] at h
    obtain ⟨h1, h2⟩ := h
    subst h1 h2
    exact ⟨rfl, rfl⟩
  | info p isRegular =>
    cases isRegular with
    | false => simp [walkFn] at h
    | true =>
      simp only [walkFn, if_true] at h
      exact loadFile_error fs idx idx' p err h

theorem recorded_loadFile (fs : FileSystem) (idx idx' : Index M) (file : String)
    (hrec : Recorded fs idx) (h : loadFile fs idx file = (idx', .nil)) : Recorded fs idx' := by
  obtain ⟨md, body, hdoc, rfl⟩ := loadFile_nil fs idx idx' file h
  intro p
  have hp := hrec p
  by_cases hpf : file = p
  · subst hpf
    simp only [GoMap.get?_set_self]
    refine ⟨md, hdoc, ?_⟩
    cases md with
    | some m => simp [GoMap.get?_set_self]
    | none =>
      simp only
      cases hd : idx.docData.get? file with
      | none => simpa [hd] using hp
      | some body' =>
        simp only [hd] at hp
        obtain ⟨md', hdoc', hmeta⟩ := hp
        rw [hdoc] at hdoc'
        simp only [Option.some.injEq, Prod.mk.injEq] at hdoc'
        rw [hmeta, ← hdoc'.1]
  · simp only [GoMap.get?_set_other _ _ hpf]
    cases md with
    | some m => simpa only [GoMap.get?_set_other _ _ hpf] using hp
    | none => exact hp

theorem keys_loadFile (fs : FileSystem) (idx idx' : Index M) (file : String)
    (h : loadFile fs idx file = (idx', .nil)) (p : String) :
    p ∈ idx'.docData.keys ↔ p = file ∨ p ∈ idx.docData.keys := by
  obtain ⟨md, body, _, rfl⟩ := loadFile_nil fs idx idx' file h
  exact GoMap.mem_keys_set _ _ _ _

theorem nodup_loadFile (fs : FileSystem) (idx idx' : Index M) (file : String)
    (hn : idx.docData.keys.Nodup) (h : loadFile fs idx file = (idx', .nil)) :
    idx'.docData.keys.Nodup := by
  obtain ⟨md, body, _, rfl⟩ := loadFile_nil fs idx idx' file h
  exact GoMap.nodup_keys_set _ _ _ hn

theorem walkLoop_nil (fs : FileSystem) (idx idx' : Index M) (es : List WalkEntry)
    (h : walkLoop fs idx es = (idx', .nil)) :
    (Recorded fs idx → Recorded fs idx') ∧
    (idx.docData.keys.Nodup → idx'.docData.keys.Nodup) ∧
    (∀ p, p ∈ idx'.docData.keys ↔ p ∈ idx.docData.keys ∨ WalkEntry.info p true ∈ es) := by
  induction es generalizing idx with
  | nil =>
    simp only [walkLoop, Prod.mk.injEq, and_true] at h
    subst h
    simp
  | cons e rest ih =>
    rw [walkLoop_cons] at h
    by_cases hr : (walkFn fs idx e).2 = .nil
    · simp only [hr, if_true] at h
      have hfn : walkFn fs idx e = ((walkFn fs idx e).1, .nil) := by rw [← hr]
      obtain ⟨ih1, ih2, ih3⟩ := ih (walkFn fs idx e).1 h
      rcases walkFn_nil fs idx _ e hfn with ⟨p, rfl, heq⟩ | ⟨p, rfl, hload⟩
      · rw [heq] at ih1 ih2 ih3
        refine ⟨ih1, ih2, fun q => ?_⟩
        rw [ih3 q]
        simp
      · refine ⟨fun hrec => ih1 (recorded_loadFile fs idx _ p hrec hload),
          fun hn => ih2 (nodup_loadFile fs idx _ p hn hload), fun q => ?_⟩
        rw [ih3 q, keys_loadFile fs idx _ p hload q]
        simp only [List.mem_cons, WalkEntry.info.injEq, and_true]
        tauto
    · simp only [hr, if_false] at h
      rw [h] at hr
      exact absurd rfl hr

theorem walkLoop_error (fs : FileSystem) (idx idx' : Index M) (es : List WalkEntry)
    (err : GoError) (h : walkLoop fs idx es = (idx', .error err)) :
    ∃ pre ent post, es = pre ++ ent :: post ∧ walkLoop fs idx pre = (idx', .nil) ∧
      walkFn fs idx' ent = (idx', .error err) := by
  induction es generalizing idx with
  | nil => simp [walkLoop] at h
  | cons e rest ih =>
    rw [walkLoop_cons] at h
    by_cases hr : (walkFn fs idx e).2 = .nil
    · simp only [hr, if_true] at h
      obtain ⟨pre, ent, post, hes, hpre, hent⟩ := ih (walkFn fs idx e).1 h
      refine ⟨e :: pre, ent, post, by rw [hes]; rfl, ?_, hent⟩
      rw [walkLoop_cons]
      simp only [hr, if_true]
      exact hpre
    · simp only [hr, if_false] at h
      have hidx := (walkFn_error fs idx idx' e err h).1
      subst hidx
      exact ⟨[], e, rest, rfl, rfl, h⟩

theorem loadFile_filenames (fs : FileSystem) (idx : Index M) (file : String) (l : List String) :
    loadFile fs { idx with filenames := l } file =
      ({ (loadFile fs idx file).1 with filenames := l }, (loadFile fs idx file).2) := by
  unfold loadFile
  cases fs.readFile file with
  | error err => rfl
  | ok data =>
    simp only
    by_cases hs : 0 ≤ bytesIndex data delim
    · simp only [hs, if_true]
      cases idx.metaType.unmarshal (sliceTo data (bytesIndex data delim)) with
      | error err => rfl
      | ok m =>
        simp only
        cases sliceFrom data (bytesIndex data delim + (delim.length : Int)) <;> rfl
    · simp only [hs, if_false]
      cases sliceFrom data (bytesIndex data delim + (delim.length : Int)) <;> rfl

theorem walkFn_filenames (fs : FileSystem) (idx : Index M) (e : WalkEntry) (l : List String) :
    walkFn fs { idx with filenames := l } e =
      ({ (walkFn fs idx e).1 with filenames := l }, (walkFn fs idx e).2) := by
  cases e with
  | failed p err => rfl
  | info p isRegular =>
    cases isRegular with
    | false => rfl
    | true => simpa [walkFn] using loadFile_filenames fs idx p l

theorem walkLoop_filenames (fs : FileSystem) (idx : Index M) (es : List WalkEntry)
    (l : List String) :
    walkLoop fs { idx with filenames := l } es =
      ({ (walkLoop fs idx es).1 with filenames := l }, (walkLoop fs idx es).2) := by
  induction es generalizing idx with
  | nil => rfl
  | cons e rest ih =>
    rw [walkLoop_cons, walkLoop_cons, walkFn_filenames]
    by_cases hr : (walkFn fs idx e).2 = .nil
    · simp only [hr, if_true]
      exact ih _
    · simp only [hr, if_false]

end WalkInvariants


section ReloadLemmas

variable {M : Type}

theorem Reload_nil (ro : RangeOrder) (fs : FileSystem) (idx idx' : Index M)
    (h : Reload ro fs idx = (idx', .nil)) :
    ∃ w, walkLoop fs { idx with docMeta := GoMap.empty, docData := GoMap.empty }
        (fs.walk idx.dir) = (w, .nil) ∧
      idx' = { w with filenames := sortStrings (ro.perm w.docData.keys) } := by
  unfold Reload at h
  simp only at h
  rcases hw : walkLoop fs { idx with docMeta := GoMap.empty, docData := GoMap.empty }
    (fs.walk idx.dir) with ⟨w, r⟩
  rw [hw] at h
  cases r with
  | nil =>
    simp only [Prod.mk.injEq, and_true] at h
    exact ⟨w, rfl, h.symm⟩
  | error e => simp at h
  | panic msg => simp at h

theorem Reload_error (ro : RangeOrder) (fs : FileSystem) (idx idx' : Index M) (e : GoError)
    (h : Reload ro fs idx = (idx', .error e)) :
    walkLoop fs { idx with docMeta := GoMap.empty, docData := GoMap.empty }
      (fs.walk idx.dir) = (idx', .error e) := by
  unfold Reload at h
  simp only at h
  rcases hw : walkLoop fs { idx with docMeta := GoMap.empty, docData := GoMap.empty }
    (fs.walk idx.dir) with ⟨w, r⟩
  rw [hw] at h
  cases r with
  | nil => simp at h
  | error e' => simpa using h
  | panic msg => simp at h

theorem recorded_cleared (fs : FileSystem) (idx : Index M) :
    Recorded fs { idx with docMeta := GoMap.empty, docData := GoMap.empty } := by
  intro p
  simp [GoMap.empty, GoMap.get?]

theorem Reload_nil_spec (ro : RangeOrder) (fs : FileSystem) (idx idx' : Index M)
    (h : Reload ro fs idx = (idx', .nil)) :
    idx'.dir = idx.dir ∧ idx'.metaType = idx.metaType ∧ Recorded fs idx' ∧ Consistent idx' ∧
      ∀ p, p ∈ idx'.docData.keys ↔ WalkEntry.info p true ∈ fs.walk idx'.dir := by
  obtain ⟨w, hw, rfl⟩ := Reload_nil ro fs idx idx' h
  have hframe := walkLoop_frame fs
    { idx with docMeta := GoMap.empty, docData := GoMap.empty } (fs.walk idx.dir)
  rw [hw] at hframe
  obtain ⟨hrec, hnodup, hkeys⟩ := walkLoop_nil fs _ w _ hw
  refine ⟨hframe.1, hframe.2.1, ?_, ⟨?_, ?_⟩, ?_⟩
  · exact hrec (recorded_cleared fs idx)
  · exact sortStrings_congr (ro.isPerm _)
  · exact hnodup (by simp [GoMap.empty, GoMap.keys])
  · intro p
    have := hkeys p
    simp only [GoMap.empty, GoMap.keys, List.map_nil, List.not_mem_nil, false_or] at this
    simp only [GoMap.keys]
    rw [this]
    have hd : w.dir = idx.dir := hframe.1
    simp only [hd]

theorem Open_some (ro : RangeOrder) (fs : FileSystem) (dir : String) (mt : MetaType M)
    (idx' : Index M) (r : Ret) (h : Open ro fs dir mt = (some idx', r)) :
    r = .nil ∧ fs.stat dir = .ok true ∧
      Reload ro fs { dir := dir, metaType := mt, docMeta := [], docData := [], filenames := [] }
        = (idx', .nil) := by
  unfold Open at h
  cases hs : fs.stat dir with
  | error err => simp [hs] at h
  | ok isDir =>
    simp only [hs] at h
    cases isDir with
    | false => simp at h
    | true =>
      simp only [Bool.not_true, Bool.false_eq_true, if_false] at h
      rcases hr : Reload ro fs
        { dir := dir, metaType := mt, docMeta := [], docData := [], filenames := [] }
        with ⟨i, ret⟩
      rw [hr] at h
      cases ret with
      | nil =>
        simp only [Prod.mk.injEq, Option.some.injEq] at h
        obtain ⟨h1, h2⟩ := h
        subst h1 h2
        exact ⟨rfl, rfl, rfl⟩
      | error e => simp at h
      | panic msg => simp at h

theorem Loaded_spec (fs : FileSystem) (idx' : Index M) (h : Loaded fs idx') :
    Recorded fs idx' ∧ Consistent idx' ∧
      ∀ p, p ∈ idx'.docData.keys ↔ WalkEntry.info p true ∈ fs.walk idx'.dir := by
  rcases h with ⟨ro, dir, mt, hopen⟩ | ⟨ro, idx, hreload⟩
  · exact (Reload_nil_spec ro fs _ idx' (Open_some ro fs dir mt idx' _ hopen).2.2).2.2
  · exact (Reload_nil_spec ro fs idx idx' hreload).2.2

theorem Doc_of_get? (idx : Index M) (filename : String) (out : M) (body : Bytes)
    (h : idx.docData.get? filename = some body) :
    Doc idx filename (some out) = (.ok body, some (metaOrZero idx filename)) := by
  simp [Doc, h]

end ReloadLemmas


/-! ## The claims -/

/-- C1 (the code departs from the claim). A file `docs/a.txt` with content `abc`
has no two consecutive newline bytes, and `Open` succeeds on its directory; yet
`Doc` returns the body `bc`, the content without its first byte, where the
claim promises the full content `abc`. The metadata written is the zero
record, as claimed. -/
theorem C1_body_loses_first_byte :
    ¬ delim <:+: bytesOf "abc" ∧
    (Open RangeOrder.stored plainFS "docs" testMeta).2 = .nil ∧
    (Open RangeOrder.stored plainFS "docs" testMeta).1.map
        (fun idx => Doc idx "docs/a.txt" (some ⟨"old"⟩))
      = some (.ok (bytesOf "bc"), some testMeta.zero) ∧
    bytesOf "bc" ≠ bytesOf "abc" := by
  refine ⟨by decide, rfl, rfl, by decide⟩

/-- C2. After a successful `Open` or `Reload`, for a regular file `p` of the
tree whose content `data` has its first pair of consecutive newline bytes at
offset `k` and whose prefix `data[0:k]` decodes to `m`, `Doc` on `p` returns
exactly `data[k+2:]` as body and writes `m` into the caller's record. -/
theorem C2_doc_splits_at_first_blank_line (fs : FileSystem) (idx : Index M) (p : String)
    (data : Bytes) (k : Nat) (m out : M)
    (hload : Loaded fs idx)
    (hvisit : WalkEntry.info p true ∈ fs.walk idx.dir)
    (hread : fs.readFile p = .ok data)
    (hk : delim <+: data.drop k)
    (hfirst : ∀ j, j < k → ¬ delim <+: data.drop j)
    (hdec : idx.metaType.unmarshal (data.take k) = .ok m) :
    Doc idx p (some out) = (.ok (data.drop (k + 2)), some m) := by
  obtain ⟨hrec, _, hkeys⟩ := Loaded_spec fs idx hload
  have hmem : p ∈ idx.docData.keys := (hkeys p).mpr hvisit
  obtain ⟨body, hbody⟩ := (GoMap.mem_keys_iff _ _).mp hmem
  have hp := hrec p
  simp only [hbody] at hp
  obtain ⟨md, hdoc, hmeta⟩ := hp
  have hidx : bytesIndex data delim = (k : Int) := bytesIndex_of_first data k hk hfirst
  have hlen := length_of_prefix_drop data k hk
  have hslice : sliceFrom data ((k : Int) + ((delim.length : Nat) : Int)) = some (data.drop (k + 2)) := by
    have h2 : ((k : Int) + ((delim.length : Nat) : Int)) = ((k + 2 : Nat) : Int) := by
      simp [delim]
    rw [h2]
    unfold sliceFrom
    have : (0 : Int) ≤ ((k + 2 : Nat) : Int) ∧ ((k + 2 : Nat) : Int) ≤ (data.length : Int) :=
      ⟨Int.ofNat_nonneg _, by exact_mod_cast hlen⟩
    rw [if_pos this, Int.toNat_ofNat]
  have hdoc' : loadedDoc fs idx.metaType p = some (some m, data.drop (k + 2)) := by
    unfold loadedDoc
    simp only [hread, hidx, hslice]
    have hnn : (0 : Int) ≤ (k : Int) := Int.ofNat_nonneg k
    simp only [hnn, if_true, sliceTo, Int.toNat_ofNat, hdec]
  rw [hdoc'] at hdoc
  simp only [Option.some.injEq, Prod.mk.injEq] at hdoc
  rw [Doc_of_get? idx p out body hbody]
  simp only [metaOrZero, hmeta, ← hdoc.1, ← hdoc.2]

/-- C2 on the test directory: `foo.txt` holds `{"Title":"foo"}`, a blank line
and `Hello from foo.`; `Doc` returns that body and the metadata `Title = "foo"`. -/
theorem C2_doc_splits_at_first_blank_line_witness :
    Doc testIndex "testdata/foo.txt" (some ⟨"old"⟩)
        = (.ok (fooContent.drop (15 + 2)), some ⟨"foo"⟩) ∧
      fooContent.drop (15 + 2)
        = bytesOf "Hello from foo.\n" :=
  ⟨C2_doc_splits_at_first_blank_line testFS testIndex "testdata/foo.txt"
      fooContent 15 ⟨"foo"⟩ ⟨"old"⟩
      (Or.inl ⟨RangeOrder.stored, "testdata", testMeta, rfl⟩)
      (by decide) rfl (by decide) (by decide) rfl,
    by decide⟩


/-- C3 (counterexample). On the index of the test directory, a `Reload` during
which the walk fails at `subdir` returns an error, and afterwards the body map
and the metadata map no longer hold `subdir/bar.txt`, which they held before
the call. -/
theorem C3_failed_reload_changes_maps :
    (Reload RangeOrder.stored brokenFS testIndex).2 = .error (.os ⟨"permission denied"⟩) ∧
    testIndex.docData.get? "testdata/subdir/bar.txt" = some (bytesOf "This is bar.\n") ∧
    (Reload RangeOrder.stored brokenFS testIndex).1.docData.get? "testdata/subdir/bar.txt"
      = none ∧
    testIndex.docMeta.get? "testdata/subdir/bar.txt" = some ⟨"bar"⟩ ∧
    (Reload RangeOrder.stored brokenFS testIndex).1.docMeta.get? "testdata/subdir/bar.txt"
      = none := by
  refine ⟨rfl, rfl, rfl, rfl, rfl⟩

/-- C3 (amended). When `Reload` returns an error, the filename list, the root
directory and the metadata type are what they were before the call, while the
two maps are rebuilt from empty: they hold what the walk loaded from the
entries `pre` that it visited before the failing entry `ent`, so the keys of
the body map are the regular files among `pre`. -/
theorem C3_failed_reload_keeps_filenames (ro : RangeOrder) (fs : FileSystem)
    (idx idx' : Index M) (e : GoError) (h : Reload ro fs idx = (idx', .error e)) :
    idx'.filenames = idx.filenames ∧ idx'.dir = idx.dir ∧ idx'.metaType = idx.metaType ∧
    ∃ pre ent post, fs.walk idx.dir = pre ++ ent :: post ∧
      walkLoop fs { idx with docMeta := GoMap.empty, docData := GoMap.empty } pre
        = (idx', .nil) ∧
      walkFn fs idx' ent = (idx', .error e) ∧
      ∀ p, p ∈ idx'.docData.keys ↔ WalkEntry.info p true ∈ pre := by
  have hw := Reload_error ro fs idx idx' e h
  have hframe := walkLoop_frame fs
    { idx with docMeta := GoMap.empty, docData := GoMap.empty } (fs.walk idx.dir)
  rw [hw] at hframe
  obtain ⟨pre, ent, post, hes, hpre, hent⟩ := walkLoop_error fs _ idx' _ e hw
  refine ⟨hframe.2.2, hframe.1, hframe.2.1, pre, ent, post, hes, hpre, hent, fun p => ?_⟩
  have hkeys := (walkLoop_nil fs _ idx' pre hpre).2.2 p
  simpa [GoMap.empty, GoMap.keys] using hkeys

/-- C3 (amended) on the test directory with the failing walk: the filename list
still names both files, and the body map holds `foo.txt` only. -/
theorem C3_failed_reload_keeps_filenames_witness :
    Reload RangeOrder.stored brokenFS testIndex
      = ((Reload RangeOrder.stored brokenFS testIndex).1, .error (.os ⟨"permission denied"⟩)) ∧
    (Reload RangeOrder.stored brokenFS testIndex).1.filenames
      = ["testdata/foo.txt", "testdata/subdir/bar.txt"] ∧
    (Reload RangeOrder.stored brokenFS testIndex).1.docData.keys = ["testdata/foo.txt"] ∧
    (Reload RangeOrder.stored brokenFS testIndex).1.filenames = testIndex.filenames :=
  ⟨rfl, by decide, by decide,
    (C3_failed_reload_keeps_filenames RangeOrder.stored brokenFS testIndex
      (Reload RangeOrder.stored brokenFS testIndex).1 (.os ⟨"permission denied"⟩) rfl).1⟩

/-- C4. After a successful `Open` or `Reload`, `Filenames()` is strictly
ascending, its elements are exactly the paths that the walk of the root
visited as regular files, and a path visited only as a directory (or other
non-regular entry) is not listed. -/
theorem C4_filenames_sorted_regular_files (fs : FileSystem) (idx : Index M)
    (hload : Loaded fs idx) :
    (Filenames idx).Sorted (· < ·) ∧
    (∀ p, p ∈ Filenames idx ↔ WalkEntry.info p true ∈ fs.walk idx.dir) ∧
    (∀ p, WalkEntry.info p false ∈ fs.walk idx.dir →
      WalkEntry.info p true ∉ fs.walk idx.dir → p ∉ Filenames idx) := by
  obtain ⟨_, ⟨hfn, hnodup⟩, hkeys⟩ := Loaded_spec fs idx hload
  have hiff : ∀ p, p ∈ Filenames idx ↔ WalkEntry.info p true ∈ fs.walk idx.dir := by
    intro p
    unfold Filenames
    rw [hfn, mem_sortStrings]
    exact hkeys p
  refine ⟨?_, hiff, fun p _ hnot hp => hnot ((hiff p).mp hp)⟩
  unfold Filenames
  rw [hfn]
  exact sortStrings_strict _ hnodup

/-- C4 on the test directory: the list is `testdata/foo.txt`,
`testdata/subdir/bar.txt`, without the directories `testdata` and
`testdata/subdir`. -/
theorem C4_filenames_sorted_regular_files_witness :
    Filenames testIndex = ["testdata/foo.txt", "testdata/subdir/bar.txt"] ∧
    (Filenames testIndex).Sorted (· < ·) ∧
    "testdata/subdir" ∉ Filenames testIndex :=
  have h := C4_filenames_sorted_regular_files testFS testIndex
    (Or.inl ⟨RangeOrder.stored, "testdata", testMeta, rfl⟩)
  ⟨by decide, h.1, h.2.2 "testdata/subdir" (by decide) (by decide)⟩


/-! ## Lemmas on sequences of calls, `Doc` and `AllMetadata` -/

theorem consistent_run (s : Index M × Bool) (ops : List (Op M))
    (hs : s.2 = true → Consistent s.1) (hlast : (run s ops).2 = true) :
    Consistent (run s ops).1 := by
  induction ops generalizing s with
  | nil => exact hs hlast
  | cons op rest ih =>
    have hrun : run s (op :: rest) = run (step s op) rest := rfl
    rw [hrun] at hlast ⊢
    refine ih (step s op) ?_ hlast
    cases op with
    | reload ro fs =>
      intro hok
      simp only [step, decide_eq_true_eq] at hok ⊢
      have hr : Reload ro fs s.1 = ((Reload ro fs s.1).1, .nil) := by rw [← hok]
      exact (Reload_nil_spec ro fs s.1 _ hr).2.2.2.1
    | doc f m => exact hs
    | allMetadata mm => exact hs
    | filenames => exact hs

theorem Doc_ok_iff (idx : Index M) (filename : String) (meta : Option M) :
    (∃ body, (Doc idx filename meta).1 = .ok body) ↔ filename ∈ idx.docData.keys := by
  rw [GoMap.mem_keys_iff]
  unfold Doc
  cases hd : idx.docData.get? filename with
  | none => simp
  | some data => cases meta <;> simp

theorem Open_error (ro : RangeOrder) (fs : FileSystem) (dir : String) (mt : MetaType M)
    (r : Option (Index M)) (e : GoError) (h : Open ro fs dir mt = (r, .error e)) :
    r = none ∧ IsNotFound e = false := by
  unfold Open at h
  cases hs : fs.stat dir with
  | error err =>
    simp only [hs, Prod.mk.injEq, Ret.error.injEq] at h
    obtain ⟨h1, h2⟩ := h
    subst h1 h2
    exact ⟨rfl, rfl⟩
  | ok isDir =>
    simp only [hs] at h
    cases isDir with
    | false =>
      simp only [Bool.not_false, if_true, Prod.mk.injEq, Ret.error.injEq] at h
      obtain ⟨h1, h2⟩ := h
      subst h1 h2
      exact ⟨rfl, rfl⟩
    | true =>
      simp only [Bool.not_true, Bool.false_eq_true, if_false] at h
      rcases hr : Reload ro fs
        { dir := dir, metaType := mt, docMeta := [], docData := [], filenames := [] }
        with ⟨i, ret⟩
      rw [hr] at h
      cases ret with
      | nil => simp at h
      | error e' =>
        simp only [Prod.mk.injEq, Ret.error.injEq] at h
        obtain ⟨h1, h2⟩ := h
        subst h1 h2
        obtain ⟨pre, ent, post, _, _, hent⟩ :=
          walkLoop_error fs _ i _ e' (Reload_error ro fs _ i e' hr)
        exact ⟨rfl, (walkFn_error fs i i ent e' hent).2⟩
      | panic msg => simp at h

theorem get?_allMetadataLoop_of_not_mem (idx : Index M) (l : List String) (metaMap : GoMap M)
    (k : String) (hk : k ∉ l) : (allMetadataLoop idx l metaMap).get? k = metaMap.get? k := by
  induction l generalizing metaMap with
  | nil => rfl
  | cons f rest ih =>
    simp only [List.mem_cons, not_or] at hk
    rw [allMetadataLoop, ih _ hk.2, GoMap.get?_set_other _ _ (fun h => hk.1 h.symm)]

theorem get?_allMetadataLoop_of_mem (idx : Index M) (l : List String) (metaMap : GoMap M)
    (k : String) (hk : k ∈ l) :
    (allMetadataLoop idx l metaMap).get? k = some (metaOrZero idx k) := by
  induction l generalizing metaMap with
  | nil => simp at hk
  | cons f rest ih =>
    rw [allMetadataLoop]
    by_cases hrest : k ∈ rest
    · exact ih _ hrest
    · have hkf : k = f := by
        rcases List.mem_cons.mp hk with h | h
        · exact h
        · exact absurd h hrest
      subst hkf
      rw [get?_allMetadataLoop_of_not_mem idx rest _ k hrest, GoMap.get?_set_self]

theorem mem_keys_allMetadataLoop (idx : Index M) (l : List String) (metaMap : GoMap M)
    (k : String) :
    k ∈ (allMetadataLoop idx l metaMap).keys ↔ k ∈ l ∨ k ∈ metaMap.keys := by
  induction l generalizing metaMap with
  | nil => simp [allMetadataLoop]
  | cons f rest ih =>
    rw [allMetadataLoop, ih, GoMap.mem_keys_set, List.mem_cons]
    tauto

/-! ## The claims, continued -/

/-- C5 (the code departs from the claim). The index of the test directory
comes from a successful `Open`; after a `Reload` that fails at `subdir`, which
has emptied the two maps and returns before it rebuilds the filename list,
`Filenames()` still lists `testdata/subdir/bar.txt`, a name that this call did
not load, `Doc` on that name fails with a not-found error, and the filename
list is not the sorted list of the keys of the body map. -/
theorem C5_failed_reload_breaks_invariant :
    Open RangeOrder.stored testFS "testdata" testMeta = (some testIndex, .nil) ∧
    "testdata/subdir/bar.txt" ∈
      Filenames (run (testIndex, true) [.reload RangeOrder.stored brokenFS]).1 ∧
    (Doc (run (testIndex, true) [.reload RangeOrder.stored brokenFS]).1
        "testdata/subdir/bar.txt" none).1
      = .error (.notFoundError "testdata/subdir/bar.txt") ∧
    Filenames (run (testIndex, true) [.reload RangeOrder.stored brokenFS]).1
      ≠ sortStrings (run (testIndex, true) [.reload RangeOrder.stored brokenFS]).1.docData.keys := by
  refine ⟨rfl, by decide, rfl, by decide⟩

/-- Where the filename list does match the body map: in every state reached
from a successful `Open` by a sequence of `Reload`, `Doc`, `AllMetadata` and
`Filenames` calls whose most recent `Reload`, if there is one, returned `nil`,
the filename list is the ascending sorted list of the keys of the body map,
and a filename is in `Filenames()` if and only if `Doc` on it succeeds. -/
theorem filenames_match_body_keys_of_settled (ro : RangeOrder) (fs : FileSystem) (dir : String)
    (mt : MetaType M) (idx0 : Index M) (ops : List (Op M)) (meta : Option M)
    (hopen : Open ro fs dir mt = (some idx0, .nil))
    (hlast : (run (idx0, true) ops).2 = true) :
    Filenames (run (idx0, true) ops).1 = sortStrings (run (idx0, true) ops).1.docData.keys ∧
    (Filenames (run (idx0, true) ops).1).Sorted (· < ·) ∧
    ∀ f, f ∈ Filenames (run (idx0, true) ops).1 ↔
      ∃ body, (Doc (run (idx0, true) ops).1 f meta).1 = .ok body := by
  have h0 : Consistent idx0 := (Loaded_spec fs idx0 (Or.inl ⟨ro, dir, mt, hopen⟩)).2.1
  obtain ⟨hfn, hnodup⟩ := consistent_run (idx0, true) ops (fun _ => h0) hlast
  refine ⟨hfn, ?_, fun f => ?_⟩
  · unfold Filenames
    rw [hfn]
    exact sortStrings_strict _ hnodup
  · rw [Doc_ok_iff]
    unfold Filenames
    rw [hfn, mem_sortStrings]

/-- On the test directory, a failing `Reload` followed by reads and a
successful `Reload` ends in a state whose filename list is that of the body
map. -/
theorem filenames_match_body_keys_of_settled_example :
    (run (testIndex, true)
      [.reload RangeOrder.stored brokenFS, .doc "testdata/foo.txt" none, .filenames,
       .reload RangeOrder.reversed testFS, .allMetadata (some [])]).2 = true ∧
    Filenames (run (testIndex, true)
      [.reload RangeOrder.stored brokenFS, .doc "testdata/foo.txt" none, .filenames,
       .reload RangeOrder.reversed testFS, .allMetadata (some [])]).1
      = ["testdata/foo.txt", "testdata/subdir/bar.txt"] ∧
    (run (testIndex, true)
      [.reload RangeOrder.stored brokenFS, .doc "testdata/foo.txt" none, .filenames,
       .reload RangeOrder.reversed testFS, .allMetadata (some [])]).1.docData.keys
      = ["testdata/foo.txt", "testdata/subdir/bar.txt"] ∧
    Filenames (run (testIndex, true)
      [.reload RangeOrder.stored brokenFS, .doc "testdata/foo.txt" none, .filenames,
       .reload RangeOrder.reversed testFS, .allMetadata (some [])]).1
      = sortStrings (run (testIndex, true)
      [.reload RangeOrder.stored brokenFS, .doc "testdata/foo.txt" none, .filenames,
       .reload RangeOrder.reversed testFS, .allMetadata (some [])]).1.docData.keys :=
  ⟨by decide, by decide, by decide,
    (filenames_match_body_keys_of_settled RangeOrder.stored testFS "testdata" testMeta testIndex
      [.reload RangeOrder.stored brokenFS, .doc "testdata/foo.txt" none, .filenames,
       .reload RangeOrder.reversed testFS, .allMetadata (some [])] none rfl (by decide)).1⟩


/-- C6. `Doc` returns an error exactly when the filename is not a key of the
body map; it then returns no body, leaves the caller's record alone, and its
error satisfies `IsNotFound`. No error returned by `Reload` or by `Open`
satisfies `IsNotFound`. -/
theorem C6_doc_error_iff_not_found (idx : Index M) (filename : String) (meta : Option M) :
    ((∃ e, (Doc idx filename meta).1 = .error e) ↔ filename ∉ idx.docData.keys) ∧
    (filename ∉ idx.docData.keys →
      Doc idx filename meta = (.error (.notFoundError filename), meta) ∧
      IsNotFound (.notFoundError filename) = true) ∧
    (∀ ro fs idx' e, Reload ro fs idx = (idx', .error e) → IsNotFound e = false) ∧
    (∀ ro fs dir (mt : MetaType M) r e,
      Open ro fs dir mt = (r, .error e) → IsNotFound e = false) := by
  refine ⟨?_, ?_, ?_, ?_⟩
  · rw [← GoMap.get?_eq_none_iff]
    unfold Doc
    cases hd : idx.docData.get? filename with
    | none => simp
    | some data => cases meta <;> simp
  · intro hk
    rw [← GoMap.get?_eq_none_iff] at hk
    simp [Doc, hk, IsNotFound]
  · intro ro fs idx' e h
    obtain ⟨pre, ent, post, _, _, hent⟩ := walkLoop_error fs _ idx' _ e (Reload_error ro fs idx idx' e h)
    exact (walkFn_error fs idx' idx' ent e hent).2
  · intro ro fs dir mt r e h
    exact (Open_error ro fs dir mt r e h).2

/-- C7. For a filename that is a key of the body map and a non-nil record,
whatever it held, `Doc` returns the stored body and overwrites the record with
the stored metadata if the filename is a key of the metadata map, and with the
zero value of the metadata type otherwise. -/
theorem C7_doc_returns_body_and_metadata (idx : Index M) (filename : String) (out : M)
    (body : Bytes) (h : idx.docData.get? filename = some body) :
    Doc idx filename (some out) =
      (.ok body, some (match idx.docMeta.get? filename with
        | some m => m
        | none => idx.metaType.zero)) := by
  rw [Doc_of_get? idx filename out body h]
  rfl

/-- C7 on two indexes: `foo.txt` of the test directory has stored metadata,
`a.txt` of the directory `docs` has none and yields the zero record. -/
theorem C7_doc_returns_body_and_metadata_witness :
    Doc testIndex "testdata/foo.txt" (some ⟨"old"⟩)
      = (.ok (bytesOf "Hello from foo.\n"), some ⟨"foo"⟩) ∧
    Open RangeOrder.stored plainFS "docs" testMeta = (some plainIndex, .nil) ∧
    Doc plainIndex "docs/a.txt" (some ⟨"old"⟩) = (.ok (bytesOf "bc"), some ⟨""⟩) :=
  ⟨C7_doc_returns_body_and_metadata testIndex "testdata/foo.txt" ⟨"old"⟩
      (bytesOf "Hello from foo.\n") rfl,
    rfl,
    C7_doc_returns_body_and_metadata plainIndex "docs/a.txt" ⟨"old"⟩ (bytesOf "bc") rfl⟩

/-- C8. For a non-nil map, after `AllMetadata` every filename of `Filenames()`
has an entry, whose value is the stored metadata record if there is one and the
zero record otherwise; this is the record that `Doc` writes for that filename
whenever `Doc` succeeds on it. -/
theorem C8_allMetadata_covers_filenames (idx : Index M) (metaMap : GoMap M)
    (filename : String) (h : filename ∈ Filenames idx) :
    ∃ result, AllMetadata idx (some metaMap) = some result ∧
      result.get? filename = some (match idx.docMeta.get? filename with
        | some m => m
        | none => idx.metaType.zero) ∧
      ∀ out body written, Doc idx filename (some out) = (.ok body, written) →
        written = result.get? filename := by
  refine ⟨allMetadataLoop idx (Filenames idx) metaMap, rfl, ?_, ?_⟩
  · rw [get?_allMetadataLoop_of_mem idx _ metaMap filename h]
    rfl
  · intro out body written hdoc
    rw [get?_allMetadataLoop_of_mem idx _ metaMap filename h]
    unfold Doc at hdoc
    cases hd : idx.docData.get? filename with
    | none => simp [hd] at hdoc
    | some data =>
      simp only [hd, Prod.mk.injEq] at hdoc
      exact hdoc.2.symm

/-- C8 on the test directory: an empty map receives `Title = "foo"` for
`testdata/foo.txt` and `Title = "bar"` for `testdata/subdir/bar.txt`. -/
theorem C8_allMetadata_covers_filenames_witness :
    AllMetadata testIndex (some [])
      = some [("testdata/foo.txt", ⟨"foo"⟩), ("testdata/subdir/bar.txt", ⟨"bar"⟩)] ∧
    ∃ result, AllMetadata testIndex (some []) = some result ∧
      result.get? "testdata/subdir/bar.txt"
        = some (match testIndex.docMeta.get? "testdata/subdir/bar.txt" with
          | some m => m
          | none => testIndex.metaType.zero) ∧
      ∀ out body written,
        Doc testIndex "testdata/subdir/bar.txt" (some out) = (.ok body, written) →
          written = result.get? "testdata/subdir/bar.txt" :=
  ⟨by decide,
    C8_allMetadata_covers_filenames testIndex [] "testdata/subdir/bar.txt" (by decide)⟩

/-- C9 (counterexample). A map that holds an entry `old.txt` before the call
still holds it after `AllMetadata` on the index of the test directory, although
`old.txt` is not in `Filenames()`. -/
theorem C9_stale_key_survives :
    (AllMetadata testIndex (some [("old.txt", ⟨"old"⟩)])).map GoMap.keys
      = some ["old.txt", "testdata/foo.txt", "testdata/subdir/bar.txt"] ∧
    "old.txt" ∉ Filenames testIndex := by
  refine ⟨by decide, by decide⟩

/-- C9 (amended). For a non-nil map, after `AllMetadata` the keys of the map are
the filenames of `Filenames()` together with the keys that the map held before
the call, and the entries under keys that are not filenames are unchanged. -/
theorem C9_allMetadata_keys (idx : Index M) (metaMap : GoMap M) :
    ∃ result, AllMetadata idx (some metaMap) = some result ∧
      (∀ k, k ∈ result.keys ↔ k ∈ Filenames idx ∨ k ∈ metaMap.keys) ∧
      (∀ k, k ∉ Filenames idx → result.get? k = metaMap.get? k) :=
  ⟨allMetadataLoop idx (Filenames idx) metaMap, rfl,
    fun k => mem_keys_allMetadataLoop idx _ metaMap k,
    fun k hk => get?_allMetadataLoop_of_not_mem idx _ metaMap k hk⟩

/-- C10. When `Reload` succeeds on a file system, a second `Reload` on the same
file system succeeds and leaves the index as the first one left it, whatever
the order in which each call ranges over the body map; the result of the first
call does not depend on that order either. -/
theorem C10_reload_idempotent (ro₁ ro₂ : RangeOrder) (fs : FileSystem) (idx idx₁ : Index M)
    (h : Reload ro₁ fs idx = (idx₁, .nil)) :
    Reload ro₂ fs idx₁ = (idx₁, .nil) ∧ Reload ro₂ fs idx = (idx₁, .nil) := by
  obtain ⟨w, hw, rfl⟩ := Reload_nil ro₁ fs idx idx₁ h
  have hframe := walkLoop_frame fs
    { idx with docMeta := GoMap.empty, docData := GoMap.empty } (fs.walk idx.dir)
  rw [hw] at hframe
  have hsort : sortStrings (ro₂.perm w.docData.keys) = sortStrings (ro₁.perm w.docData.keys) :=
    sortStrings_congr ((ro₂.isPerm _).trans (ro₁.isPerm _).symm)
  constructor
  · have hwf := walkLoop_filenames fs
      { idx with docMeta := GoMap.empty, docData := GoMap.empty } (fs.walk idx.dir)
      (sortStrings (ro₁.perm w.docData.keys))
    rw [hw] at hwf
    have hd : w.dir = idx.dir := hframe.1
    have hm : w.metaType = idx.metaType := hframe.2.1
    unfold Reload
    simp only [hd, hm]
    simp only at hwf
    rw [hwf]
    simp only [hsort, hd, hm]
  · unfold Reload
    simp only
    rw [hw]
    simp only [hsort]

/-- C10 on the test directory: reloading the index that `Open` returned, in
either range order, gives the same index again. -/
theorem C10_reload_idempotent_witness :
    Reload RangeOrder.stored testFS
        { dir := "testdata", metaType := testMeta, docMeta := [], docData := [], filenames := [] }
      = (testIndex, .nil) ∧
    Reload RangeOrder.reversed testFS testIndex = (testIndex, .nil) :=
  ⟨rfl,
    (C10_reload_idempotent RangeOrder.stored RangeOrder.reversed testFS
      { dir := "testdata", metaType := testMeta, docMeta := [], docData := [], filenames := [] }
      testIndex rfl).1⟩


/-! ## Lemmas on the bounds of the body slice -/

theorem indexFrom_cases (sep : Bytes) (s : Bytes) (i : Nat) :
    indexFrom sep s i = -1 ∨
    ∃ k, indexFrom sep s i = ((i + k : Nat) : Int) ∧ sep <+: s.drop k := by
  induction s generalizing i with
  | nil =>
    by_cases hsep : sep = []
    · exact Or.inr ⟨0, by simp [indexFrom, hsep], by simp [hsep]⟩
    · exact Or.inl (by simp [indexFrom, hsep])
  | cons c t ih =>
    by_cases hp : sep <+: c :: t
    · exact Or.inr ⟨0, by simp [indexFrom, List.isPrefixOf_iff_prefix, hp], by simpa using hp⟩
    · have hstep : indexFrom sep (c :: t) i = indexFrom sep t (i + 1) := by
        simp [indexFrom, List.isPrefixOf_iff_prefix, hp]
      rcases ih (i + 1) with h | ⟨k, hk, hpre⟩
      · exact Or.inl (by rw [hstep, h])
      · refine Or.inr ⟨k + 1, ?_, by simpa using hpre⟩
        rw [hstep, hk]
        congr 1
        omega

theorem bytesIndex_cases (data : Bytes) :
    bytesIndex data delim = -1 ∨
    ∃ k : Nat, bytesIndex data delim = (k : Int) ∧ k + 2 ≤ data.length := by
  rcases indexFrom_cases delim data 0 with h | ⟨k, hk, hpre⟩
  · exact Or.inl h
  · refine Or.inr ⟨k, ?_, length_of_prefix_drop data k hpre⟩
    simpa [bytesIndex] using hk

theorem sliceFrom_of_index_nonneg (data : Bytes) (h : 0 ≤ bytesIndex data delim) :
    ∃ body, sliceFrom data (bytesIndex data delim + (delim.length : Int)) = some body := by
  rcases bytesIndex_cases data with hneg | ⟨k, hk, hlen⟩
  · rw [hneg] at h
    exact absurd h (by decide)
  · rw [hk]
    unfold sliceFrom
    have hb : (0 : Int) ≤ (k : Int) + (delim.length : Int) ∧
        (k : Int) + (delim.length : Int) ≤ (data.length : Int) := by
      simp only [delim, List.length_cons, List.length_nil]
      constructor <;> omega
    rw [if_pos hb]
    exact ⟨_, rfl⟩

theorem sliceFrom_of_index_neg (data : Bytes) (h : ¬ 0 ≤ bytesIndex data delim) :
    sliceFrom data (bytesIndex data delim + (delim.length : Int)) =
      if data = [] then none else some (data.drop 1) := by
  rcases bytesIndex_cases data with hneg | ⟨k, hk, _⟩
  · rw [hneg]
    unfold sliceFrom
    cases data with
    | nil => simp [delim]
    | cons c t =>
      simp only [delim, List.length_cons, List.length_nil]
      have hb : (0 : Int) ≤ -1 + ((0 + 1 + 1 : Nat) : Int) ∧
          -1 + ((0 + 1 + 1 : Nat) : Int) ≤ ((t.length + 1 : Nat) : Int) := by
        constructor <;> omega
      rw [if_pos hb]
      simp
  · rw [hk] at h
    exact absurd (Int.ofNat_nonneg k) h


/-! ## Lemmas on the keys of the two maps -/

theorem metaWithinData_loadFile (fs : FileSystem) (idx : Index M) (file : String)
    (h : MetaWithinData idx) : MetaWithinData (loadFile fs idx file).1 := by
  unfold loadFile
  cases fs.readFile file with
  | error err => exact h
  | ok data =>
    simp only
    by_cases hs : 0 ≤ bytesIndex data delim
    · simp only [hs, if_true]
      cases idx.metaType.unmarshal (sliceTo data (bytesIndex data delim)) with
      | error err => exact h
      | ok m =>
        obtain ⟨body, hbody⟩ := sliceFrom_of_index_nonneg data hs
        simp only [hbody]
        intro p hp
        rw [GoMap.mem_keys_set] at hp ⊢
        exact hp.imp id (h p)
    · simp only [hs, if_false]
      cases sliceFrom data (bytesIndex data delim + (delim.length : Int)) with
      | none => exact h
      | some body =>
        intro p hp
        rw [GoMap.mem_keys_set]
        exact Or.inr (h p hp)

theorem metaWithinData_walkFn (fs : FileSystem) (idx : Index M) (e : WalkEntry)
    (h : MetaWithinData idx) : MetaWithinData (walkFn fs idx e).1 := by
  cases e with
  | failed p err => exact h
  | info p isRegular =>
    cases isRegular with
    | false => exact h
    | true => simpa [walkFn] using metaWithinData_loadFile fs idx p h

theorem metaWithinData_walkLoop (fs : FileSystem) (idx : Index M) (es : List WalkEntry)
    (h : MetaWithinData idx) : MetaWithinData (walkLoop fs idx es).1 := by
  induction es generalizing idx with
  | nil => exact h
  | cons e rest ih =>
    rw [walkLoop_cons]
    by_cases hr : (walkFn fs idx e).2 = .nil
    · simp only [hr, if_true]
      exact ih _ (metaWithinData_walkFn fs idx e h)
    · simp only [hr, if_false]
      exact metaWithinData_walkFn fs idx e h

theorem metaWithinData_Reload (ro : RangeOrder) (fs : FileSystem) (idx : Index M) :
    MetaWithinData (Reload ro fs idx).1 := by
  have hw := metaWithinData_walkLoop fs
    { idx with docMeta := GoMap.empty, docData := GoMap.empty } (fs.walk idx.dir)
    (by intro p hp; simp [GoMap.empty, GoMap.keys] at hp)
  unfold Reload
  simp only
  rcases hres : walkLoop fs { idx with docMeta := GoMap.empty, docData := GoMap.empty }
    (fs.walk idx.dir) with ⟨w, r⟩
  rw [hres] at hw
  cases r with
  | nil => exact hw
  | error e => exact hw
  | panic msg => exact hw

theorem metaWithinData_run (s : Index M × Bool) (ops : List (Op M))
    (h : MetaWithinData s.1) : MetaWithinData (run s ops).1 := by
  induction ops generalizing s with
  | nil => exact h
  | cons op rest ih =>
    have hrun : run s (op :: rest) = run (step s op) rest := rfl
    rw [hrun]
    refine ih (step s op) ?_
    cases op with
    | reload ro fs => exact metaWithinData_Reload ro fs s.1
    | doc f m => exact h
    | allMetadata mm => exact h
    | filenames => exact h

theorem Reload_fresh (ro : RangeOrder) (fs : FileSystem) (idx : Index M) :
    (Reload ro fs
        { dir := idx.dir, metaType := idx.metaType, docMeta := [], docData := [],
          filenames := [] }).2 = (Reload ro fs idx).2 ∧
      ((Reload ro fs idx).2 = .nil →
        (Reload ro fs
          { dir := idx.dir, metaType := idx.metaType, docMeta := [], docData := [],
            filenames := [] }).1 = (Reload ro fs idx).1) := by
  have hwf := walkLoop_filenames fs
    { dir := idx.dir, metaType := idx.metaType, docMeta := GoMap.empty,
      docData := GoMap.empty, filenames := [] } (fs.walk idx.dir) idx.filenames
  simp only at hwf
  unfold Reload
  simp only [GoMap.empty] at hwf ⊢
  rw [hwf]
  rcases walkLoop fs
    { dir := idx.dir, metaType := idx.metaType, docMeta := [], docData := [], filenames := [] }
    (fs.walk idx.dir) with ⟨w, r⟩
  cases r <;> simp


theorem Reload_any_order (ro₁ ro₂ : RangeOrder) (fs : FileSystem) (idx idx₁ : Index M)
    (h : Reload ro₁ fs idx = (idx₁, .nil)) : Reload ro₂ fs idx = (idx₁, .nil) := by
  obtain ⟨w, hw, rfl⟩ := Reload_nil ro₁ fs idx idx₁ h
  have hsort : sortStrings (ro₂.perm w.docData.keys) = sortStrings (ro₁.perm w.docData.keys) :=
    sortStrings_congr ((ro₂.isPerm _).trans (ro₁.isPerm _).symm)
  unfold Reload
  simp only
  rw [hw]
  simp only [hsort]

theorem Open_of_Reload (ro ro' : RangeOrder) (fs : FileSystem) (idx idx' : Index M)
    (h : Reload ro fs idx = (idx', .nil)) (hstat : fs.stat idx.dir = .ok true) :
    Open ro' fs idx.dir idx.metaType = (some idx', .nil) := by
  have h' := Reload_any_order ro ro' fs idx idx' h
  obtain ⟨hret, hidx⟩ := Reload_fresh ro' fs idx
  rw [h'] at hret hidx
  have hfresh : Reload ro' fs
      { dir := idx.dir, metaType := idx.metaType, docMeta := [], docData := [],
        filenames := [] } = (idx', .nil) :=
    Prod.ext (hidx rfl) hret
  unfold Open
  simp only [hstat, Bool.not_true, Bool.false_eq_true, if_false]
  rw [hfresh]

/-! ## The claims, continued -/

/-- C11. A successful `Reload` replaces the snapshot: a name that the walk of
the root does not visit as a regular file, whether or not the previous
snapshot held it, is afterwards absent from `Filenames()` and from the
metadata map, and `Doc` on it fails with a not-found error; and when the root
is an existing directory, a fresh `Open` of it with the same metadata type
returns exactly the index that the `Reload` left. -/
theorem C11_reload_replaces_snapshot (ro ro' : RangeOrder) (fs : FileSystem)
    (idx idx' : Index M) (h : Reload ro fs idx = (idx', .nil)) :
    (∀ p meta, WalkEntry.info p true ∉ fs.walk idx.dir →
      p ∉ Filenames idx' ∧ p ∉ idx'.docMeta.keys ∧
      Doc idx' p meta = (.error (.notFoundError p), meta) ∧
      IsNotFound (.notFoundError p) = true) ∧
    (fs.stat idx.dir = .ok true → Open ro' fs idx.dir idx.metaType = (some idx', .nil)) := by
  obtain ⟨hdir, _, _, ⟨hfn, _⟩, hkeys⟩ := Reload_nil_spec ro fs idx idx' h
  have hsub : MetaWithinData idx' := by
    have := metaWithinData_Reload ro fs idx
    rwa [h] at this
  refine ⟨fun p meta hp => ?_, fun hstat => Open_of_Reload ro ro' fs idx idx' h hstat⟩
  have hnk : p ∉ idx'.docData.keys := by
    rw [hkeys p, hdir]
    exact hp
  refine ⟨?_, fun hm => hnk (hsub p hm), ?_, rfl⟩
  · unfold Filenames
    rw [hfn, mem_sortStrings]
    exact hnk
  · have hnone := (GoMap.get?_eq_none_iff _ _).mpr hnk
    simp [Doc, hnone]

/-- C11 on the test directory: after `subdir/bar.txt` is removed and the index
is reloaded, the name is gone from the list and from the metadata map, `Doc`
on it is a not-found error, and `Open` of the directory gives the same index. -/
theorem C11_reload_replaces_snapshot_witness :
    "testdata/subdir/bar.txt" ∈ Filenames testIndex ∧
    Filenames (Reload RangeOrder.stored shrunkFS testIndex).1 = ["testdata/foo.txt"] ∧
    (∀ p meta, WalkEntry.info p true ∉ shrunkFS.walk testIndex.dir →
      p ∉ Filenames (Reload RangeOrder.stored shrunkFS testIndex).1 ∧
      p ∉ (Reload RangeOrder.stored shrunkFS testIndex).1.docMeta.keys ∧
      Doc (Reload RangeOrder.stored shrunkFS testIndex).1 p meta
        = (.error (.notFoundError p), meta) ∧
      IsNotFound (.notFoundError p) = true) ∧
    (shrunkFS.stat testIndex.dir = .ok true →
      Open RangeOrder.reversed shrunkFS testIndex.dir testIndex.metaType
        = (some (Reload RangeOrder.stored shrunkFS testIndex).1, .nil)) :=
  ⟨by decide, by decide,
    C11_reload_replaces_snapshot RangeOrder.stored RangeOrder.reversed shrunkFS testIndex
      (Reload RangeOrder.stored shrunkFS testIndex).1 rfl⟩

/-- C12. In every state reached from a successful `Open` by any sequence of
`Reload`, `Doc`, `AllMetadata` and `Filenames` calls, whether the `Reload`
calls return `nil`, return an error part-way through the walk or panic, every
key of the metadata map is a key of the body map. -/
theorem C12_meta_keys_within_body_keys (ro : RangeOrder) (fs : FileSystem) (dir : String)
    (mt : MetaType M) (idx0 : Index M) (ops : List (Op M)) (p : String)
    (hopen : Open ro fs dir mt = (some idx0, .nil))
    (hp : p ∈ (run (idx0, true) ops).1.docMeta.keys) :
    p ∈ (run (idx0, true) ops).1.docData.keys := by
  have h0 : MetaWithinData idx0 := by
    have hr := (Open_some ro fs dir mt idx0 _ hopen).2.2
    have := metaWithinData_Reload ro fs
      { dir := dir, metaType := mt, docMeta := [], docData := [], filenames := [] }
    rwa [hr] at this
  exact metaWithinData_run (idx0, true) ops h0 p hp

/-- C12 on the test directory: after a `Reload` that fails at `subdir`, the
metadata map and the body map both hold `foo.txt` only. -/
theorem C12_meta_keys_within_body_keys_witness :
    (run (testIndex, true) [.reload RangeOrder.stored brokenFS]).2 = false ∧
    (run (testIndex, true) [.reload RangeOrder.stored brokenFS]).1.docMeta.keys
      = ["testdata/foo.txt"] ∧
    "testdata/foo.txt" ∈ (run (testIndex, true) [.reload RangeOrder.stored brokenFS]).1.docData.keys :=
  ⟨by decide, by decide,
    C12_meta_keys_within_body_keys RangeOrder.stored testFS "testdata" testMeta testIndex
      [.reload RangeOrder.stored brokenFS] "testdata/foo.txt" rfl (by decide)⟩


/-! ## Lemmas on decode errors -/

theorem loadFile_ret_of_nonempty (fs : FileSystem) (idx : Index M) (p : String) (data : Bytes)
    (hread : fs.readFile p = .ok data) (hne : data ≠ []) :
    (loadFile fs idx p).2 =
      match decodeFailure fs idx.metaType p with
      | some err => .error (.json err)
      | none => .nil := by
  unfold loadFile decodeFailure
  simp only [hread]
  by_cases hs : 0 ≤ bytesIndex data delim
  · simp only [hs, if_true]
    cases idx.metaType.unmarshal (sliceTo data (bytesIndex data delim)) with
    | error err => rfl
    | ok m =>
      obtain ⟨body, hbody⟩ := sliceFrom_of_index_nonneg data hs
      simp only [hbody]
  · simp only [hs, if_false]
    rw [sliceFrom_of_index_neg data hs]
    simp only [hne, if_false]

theorem walkLoop_ret_of_nonempty (fs : FileSystem) (idx : Index M) (es : List WalkEntry)
    (hwalk : ∀ p err, WalkEntry.failed p err ∉ es)
    (hread : ∀ p, WalkEntry.info p true ∈ es → ∃ data, fs.readFile p = .ok data ∧ data ≠ []) :
    (walkLoop fs idx es).2 =
      match firstDecodeFailure fs idx.metaType es with
      | some err => .error (.json err)
      | none => .nil := by
  induction es generalizing idx with
  | nil => rfl
  | cons e rest ih =>
    have hwalk' : ∀ p err, WalkEntry.failed p err ∉ rest :=
      fun p err hmem => hwalk p err (List.mem_cons_of_mem _ hmem)
    have hread' : ∀ p, WalkEntry.info p true ∈ rest →
        ∃ data, fs.readFile p = .ok data ∧ data ≠ [] :=
      fun p hmem => hread p (List.mem_cons_of_mem _ hmem)
    rw [walkLoop_cons]
    cases e with
    | failed p err => exact absurd (List.mem_cons_self _ _) (hwalk p err)
    | info p isRegular =>
      cases isRegular with
      | false =>
        simp only [walkFn, Bool.false_eq_true, if_false, if_true, firstDecodeFailure]
        exact ih idx hwalk' hread'
      | true =>
        obtain ⟨data, hdata, hne⟩ := hread p (List.mem_cons_self _ _)
        have hret := loadFile_ret_of_nonempty fs idx p data hdata hne
        have hmt := (loadFile_frame fs idx p).2.1
        simp only [walkFn, if_true, firstDecodeFailure]
        cases hd : decodeFailure fs idx.metaType p with
        | some err =>
          rw [hd] at hret
          simp only [hret, reduceCtorEq, if_false]
        | none =>
          rw [hd] at hret
          simp only [hret, if_true]
          rw [ih _ hwalk' hread', hmt]

theorem Reload_ret (ro : RangeOrder) (fs : FileSystem) (idx : Index M) :
    (Reload ro fs idx).2 =
      (walkLoop fs { idx with docMeta := GoMap.empty, docData := GoMap.empty }
        (fs.walk idx.dir)).2 := by
  unfold Reload
  simp only
  rcases walkLoop fs { idx with docMeta := GoMap.empty, docData := GoMap.empty }
    (fs.walk idx.dir) with ⟨w, r⟩
  cases r <;> rfl

/-- When the walk reports no failure and every regular file is readable and
not empty, `Reload` returns the decode error of the first regular file, in
the order of the walk, whose content has a delimiter after a segment that
does not decode, and returns `nil` when there is no such file. -/
theorem Reload_ret_of_nonempty (ro : RangeOrder) (fs : FileSystem) (idx : Index M)
    (hwalk : ∀ p err, WalkEntry.failed p err ∉ fs.walk idx.dir)
    (hread : ∀ p, WalkEntry.info p true ∈ fs.walk idx.dir →
      ∃ data, fs.readFile p = .ok data ∧ data ≠ []) :
    (Reload ro fs idx).2 =
      match firstDecodeFailure fs idx.metaType (fs.walk idx.dir) with
      | some err => .error (.json err)
      | none => .nil := by
  rw [Reload_ret]
  exact walkLoop_ret_of_nonempty fs _ _ hwalk hread

/-! ## The claims, continued -/

/-- C13 (the code departs from the claim). In the directory `docs` every file
is readable, and `b.txt` has a delimiter after the segment `x`, which does not
decode; yet `Reload` does not return that decode error: the empty file
`a.txt`, visited first, makes `loadFile` panic on its body slice. -/
theorem C13_panic_before_decode_error :
    emptyThenBadFS.walk "docs"
      = [.info "docs" false, .info "docs/a.txt" true, .info "docs/b.txt" true] ∧
    emptyThenBadFS.readFile "docs/a.txt" = .ok [] ∧
    emptyThenBadFS.readFile "docs/b.txt" = .ok (bytesOf "x\n\nbody") ∧
    decodeFailure emptyThenBadFS testMeta "docs/b.txt" = some ⟨"invalid character"⟩ ∧
    (Reload RangeOrder.stored emptyThenBadFS
        { dir := "docs", metaType := testMeta, docMeta := [], docData := [], filenames := [] }).2
      = .panic "slice bounds out of range" := by
  refine ⟨by decide, rfl, rfl, rfl, rfl⟩


/-- C14 (the code departs from the claim). The path `testdata/foo.txt` exists
and is a regular file, not a directory; `Open` on it returns no index and the
error made by `fmt.Errorf("not a directory: %q", dir)`, which does not satisfy
`os.IsNotExist`, whatever `os.IsNotExist` answers on the errors of package
`os`. For a path on which `os.Stat` fails with an error that satisfies
`os.IsNotExist`, `Open` does return that error, as claimed. -/
theorem C14_not_a_directory_error :
    testFS.stat "testdata/foo.txt" = .ok false ∧
    Open RangeOrder.stored testFS "testdata/foo.txt" testMeta
      = (none, .error (.notADirectory "testdata/foo.txt")) ∧
    (∀ osNotExist, IsNotExist osNotExist (.notADirectory "testdata/foo.txt") = false) ∧
    (∀ osNotExist ro (fs : FileSystem) dir err, fs.stat dir = .error err →
      osNotExist err = true →
      Open ro fs dir testMeta = (none, .error (.os err)) ∧
      IsNotExist osNotExist (.os err) = true) := by
  refine ⟨rfl, rfl, fun _ => rfl, fun osNotExist ro fs dir err hstat hne => ?_⟩
  simp [Open, hstat, IsNotExist, hne]

/-- C15. The result of `Open` on a root whose `os.Stat` fails, or succeeds on
something that is not a directory, is fixed by that answer alone, whatever the
walk and the reads of the file system would give: no index, and the error of
`os.Stat` or the not-a-directory error. On an existing directory, `Open`
returns an error exactly when the initial `Reload` does, the same error and no
index; it returns the index that the `Reload` built when the `Reload` returns
`nil`; and a panic of the `Reload` is a panic of `Open`. -/
theorem C15_open_checks_root_then_reloads (ro : RangeOrder) (fs : FileSystem) (dir : String)
    (mt : MetaType M) :
    (∀ err, fs.stat dir = .error err →
      ∀ ro' fs', fs'.stat dir = fs.stat dir → Open ro' fs' dir mt = (none, .error (.os err))) ∧
    (fs.stat dir = .ok false →
      ∀ ro' fs', fs'.stat dir = fs.stat dir →
        Open ro' fs' dir mt = (none, .error (.notADirectory dir))) ∧
    (fs.stat dir = .ok true →
      (∀ e, (Open ro fs dir mt).2 = .error e ↔
        (Reload ro fs (Index.init dir mt)).2 = .error e) ∧
      (∀ e, (Reload ro fs (Index.init dir mt)).2 = .error e → Open ro fs dir mt = (none, .error e)) ∧
      (∀ idx', Reload ro fs (Index.init dir mt) = (idx', .nil) → Open ro fs dir mt = (some idx', .nil)) ∧
      (∀ msg, (Reload ro fs (Index.init dir mt)).2 = .panic msg → Open ro fs dir mt = (none, .panic msg))) := by
  refine ⟨?_, ?_, ?_⟩
  · intro err herr ro' fs' hsame
    rw [herr] at hsame
    simp [Open, hsame]
  · intro hfile ro' fs' hsame
    rw [hfile] at hsame
    simp [Open, hsame]
  · intro hdir
    have hopen : Open ro fs dir mt =
        match Reload ro fs (Index.init dir mt) with
        | (idx1, .nil) => (some idx1, .nil)
        | (_, r) => (none, r) := by
      simp [Open, hdir, Index.init]
    rw [hopen]
    rcases Reload ro fs (Index.init dir mt) with ⟨w, r⟩
    cases r <;> simp

/-- C16. When the walk of the root `d` visits the entries of its tree under
the paths `join d rel`, as `filepath.Walk` does with `filepath.Join`, then
after a successful `Open` of `d` a regular file at the relative path `p` is
listed by `Filenames()`, found by `Doc` and exported by `AllMetadata` under the
key `join d p`, and every listed name is such a joined path. -/
theorem C16_keys_are_joined_paths (ro : RangeOrder) (fs : FileSystem)
    (join : String → String → String) (d : String) (mt : MetaType M) (idx : Index M)
    (entries : List (String × Bool)) (p : String) (meta : Option M) (metaMap : GoMap M)
    (hopen : Open ro fs d mt = (some idx, .nil))
    (hwalk : fs.walk d = walkOf join d entries)
    (hp : (p, true) ∈ entries) :
    join d p ∈ Filenames idx ∧
    (∃ body, (Doc idx (join d p) meta).1 = .ok body) ∧
    (∃ result, AllMetadata idx (some metaMap) = some result ∧ join d p ∈ result.keys) ∧
    (∀ q, q ∈ Filenames idx → ∃ p', (p', true) ∈ entries ∧ q = join d p') := by
  have hreload := (Open_some ro fs d mt idx _ hopen).2.2
  obtain ⟨hdir, _, _, ⟨hfn, _⟩, hkeys⟩ := Reload_nil_spec ro fs _ idx hreload
  have hdir' : idx.dir = d := hdir
  have hmemfn : ∀ q, q ∈ Filenames idx ↔ WalkEntry.info q true ∈ walkOf join d entries := by
    intro q
    unfold Filenames
    rw [hfn, mem_sortStrings, hkeys q, hdir', hwalk]
  have hvisit : WalkEntry.info (join d p) true ∈ walkOf join d entries :=
    List.mem_cons_of_mem _ (List.mem_map.mpr ⟨(p, true), hp, rfl⟩)
  have hlisted : join d p ∈ Filenames idx := (hmemfn _).mpr hvisit
  refine ⟨hlisted, ?_, ?_, ?_⟩
  · rw [Doc_ok_iff]
    have := hlisted
    unfold Filenames at this
    rwa [hfn, mem_sortStrings] at this
  · exact ⟨allMetadataLoop idx (Filenames idx) metaMap, rfl,
      (mem_keys_allMetadataLoop idx _ metaMap _).mpr (Or.inl hlisted)⟩
  · intro q hq
    have hmem := (hmemfn q).mp hq
    unfold walkOf at hmem
    rcases List.mem_cons.mp hmem with h | h
    · simp at h
    · obtain ⟨⟨p', b⟩, hin, heq⟩ := List.mem_map.mp h
      simp only [WalkEntry.info.injEq] at heq
      obtain ⟨h1, h2⟩ := heq
      subst h2
      exact ⟨p', hin, h1.symm⟩

/-- C16 on the test directory: `Open("testdata", ...)` lists
`testdata/foo.txt` and `testdata/subdir/bar.txt`, `Doc` succeeds on
`testdata/foo.txt`, and fails with a not-found error on `foo.txt` alone. -/
theorem C16_keys_are_joined_paths_witness :
    Filenames testIndex = ["testdata/foo.txt", "testdata/subdir/bar.txt"] ∧
    slashJoin "testdata" "foo.txt" = "testdata/foo.txt" ∧
    (Doc testIndex "foo.txt" none).1 = .error (.notFoundError "foo.txt") ∧
    (slashJoin "testdata" "foo.txt" ∈ Filenames testIndex ∧
      (∃ body, (Doc testIndex (slashJoin "testdata" "foo.txt") none).1 = .ok body) ∧
      (∃ result, AllMetadata testIndex (some []) = some result ∧
        slashJoin "testdata" "foo.txt" ∈ result.keys) ∧
      (∀ q, q ∈ Filenames testIndex →
        ∃ p', (p', true) ∈ [("foo.txt", true), ("subdir", false), ("subdir/bar.txt", true)] ∧
          q = slashJoin "testdata" p')) :=
  ⟨by decide, by decide, rfl,
    C16_keys_are_joined_paths RangeOrder.stored testFS slashJoin "testdata" testMeta testIndex
      [("foo.txt", true), ("subdir", false), ("subdir/bar.txt", true)] "foo.txt" none []
      rfl (by decide) (by decide)⟩

/-- The body slice `data[mdStart+len(delim):]` of `loadFile` is out of bounds
exactly for the empty content. -/
theorem bodySlice_none_iff (data : Bytes) :
    sliceFrom data (bytesIndex data delim + (delim.length : Int)) = none ↔ data = [] := by
  by_cases hs : 0 ≤ bytesIndex data delim
  · obtain ⟨body, hbody⟩ := sliceFrom_of_index_nonneg data hs
    rcases bytesIndex_cases data with hneg | ⟨k, _, hlen⟩
    · rw [hneg] at hs
      exact absurd hs (by decide)
    · rw [hbody]
      constructor
      · intro h
        exact absurd h (by simp)
      · intro h
        rw [h] at hlen
        simp at hlen
  · rw [sliceFrom_of_index_neg data hs]
    by_cases hd : data = [] <;> simp [hd]

/-- C18 (the code departs from the claim). For the empty content,
`bytes.Index` gives `-1`, the body slice is `data[1:]` on a slice of length 0,
which is out of bounds, and `loadFile` panics; `Reload` and `Open` on a
directory with an empty file neither succeed nor return an error. -/
theorem C18_empty_file_panics :
    emptyFS.readFile "docs/a.txt" = .ok [] ∧
    bytesIndex [] delim = -1 ∧
    sliceFrom [] (bytesIndex [] delim + (delim.length : Int)) = none ∧
    (loadFile emptyFS
        { dir := "docs", metaType := testMeta, docMeta := [], docData := [], filenames := [] }
        "docs/a.txt").2 = .panic "slice bounds out of range" ∧
    (Reload RangeOrder.stored emptyFS
        { dir := "docs", metaType := testMeta, docMeta := [], docData := [], filenames := [] }).2
      = .panic "slice bounds out of range" ∧
    Open RangeOrder.stored emptyFS "docs" testMeta
      = (none, .panic "slice bounds out of range") := by
  refine ⟨rfl, by decide, by decide, rfl, rfl, rfl⟩


/-! ## Lemmas on the index with pointers -/

theorem GoMap.get?_map_snd {V W : Type} (m : GoMap V) (g : V → W) (k : String) :
    GoMap.get? (m.map (fun e => (e.1, g e.2))) k = (m.get? k).map g := by
  induction m with
  | nil => rfl
  | cons hd t ih =>
    obtain ⟨k', v⟩ := hd
    by_cases hk : k' = k
    · simp [GoMap.get?, hk]
    · simpa [GoMap.get?, hk] using ih

theorem deref_congr (idx : RefIndex M) (heap heap' : Heap M)
    (hb : heap'.bytes = heap.bytes) (hs : heap'.strings = heap.strings)
    (hr : ∀ e, e ∈ idx.docMeta →
      heap'.records.getD e.2 idx.metaType.zero = heap.records.getD e.2 idx.metaType.zero) :
    idx.deref heap' = idx.deref heap := by
  unfold RefIndex.deref
  rw [hb, hs]
  congr 1
  exact List.map_congr_left (fun e he => by rw [hr e he])

theorem getD_set_of_ne {α : Type} (l : List α) (out a : Nat) (v z : α) (h : a ≠ out) :
    (l.set out v).getD a z = l.getD a z := by
  rw [List.getD_eq_getElem?_getD, List.getD_eq_getElem?_getD,
    List.getElem?_set_ne (fun h' => h h'.symm)]

theorem getD_append_default {α : Type} (l : List α) (a : Nat) (z : α) :
    (l ++ [z]).getD a z = l.getD a z := by
  rw [List.getD_eq_getElem?_getD, List.getD_eq_getElem?_getD]
  by_cases hlt : a < l.length
  · rw [List.getElem?_append_left hlt]
  · have hge : l.length ≤ a := Nat.le_of_not_lt hlt
    rw [List.getElem?_append_right hge, List.getElem?_eq_none hge]
    cases h : a - l.length <;> simp

theorem allMetadataRefLoop_heap (idx : RefIndex M) (l : List String) (metaMap : GoMap Nat)
    (heap : Heap M) :
    (allMetadataRefLoop idx l (metaMap, heap)).2.bytes = heap.bytes ∧
    (allMetadataRefLoop idx l (metaMap, heap)).2.strings = heap.strings ∧
    ∀ a, (allMetadataRefLoop idx l (metaMap, heap)).2.records.getD a idx.metaType.zero
      = heap.records.getD a idx.metaType.zero := by
  induction l generalizing metaMap heap with
  | nil => exact ⟨rfl, rfl, fun _ => rfl⟩
  | cons f rest ih =>
    rw [allMetadataRefLoop]
    cases idx.docMeta.get? f with
    | some docMeta => exact ih _ _
    | none =>
      simp only
      obtain ⟨h1, h2, h3⟩ := ih (metaMap.set f heap.records.length)
        { heap with records := heap.records ++ [idx.metaType.zero] }
      refine ⟨h1, h2, fun a => ?_⟩
      rw [h3 a]
      exact getD_append_default heap.records a _

theorem get?_allMetadataRefLoop_of_not_mem (idx : RefIndex M) (l : List String)
    (metaMap : GoMap Nat) (heap : Heap M) (k : String) (hk : k ∉ l) :
    (allMetadataRefLoop idx l (metaMap, heap)).1.get? k = metaMap.get? k := by
  induction l generalizing metaMap heap with
  | nil => rfl
  | cons f rest ih =>
    simp only [List.mem_cons, not_or] at hk
    rw [allMetadataRefLoop]
    cases idx.docMeta.get? f with
    | some docMeta =>
      simp only
      rw [ih _ _ hk.2, GoMap.get?_set_other _ _ (fun h => hk.1 h.symm)]
    | none =>
      simp only
      rw [ih _ _ hk.2, GoMap.get?_set_other _ _ (fun h => hk.1 h.symm)]

theorem get?_allMetadataRefLoop_of_mem (idx : RefIndex M) (l : List String)
    (metaMap : GoMap Nat) (heap : Heap M) (k : String) (a : Nat) (hk : k ∈ l)
    (ha : idx.docMeta.get? k = some a) :
    (allMetadataRefLoop idx l (metaMap, heap)).1.get? k = some a := by
  induction l generalizing metaMap heap with
  | nil => simp at hk
  | cons f rest ih =>
    by_cases hrest : k ∈ rest
    · rw [allMetadataRefLoop]
      cases idx.docMeta.get? f with
      | some docMeta => exact ih _ _ hrest
      | none => exact ih _ _ hrest
    · have hkf : k = f := by
        rcases List.mem_cons.mp hk with h | h
        · exact h
        · exact absurd h hrest
      subst hkf
      rw [allMetadataRefLoop, ha]
      simp only
      rw [get?_allMetadataRefLoop_of_not_mem idx rest _ _ k hrest, GoMap.get?_set_self]

/-- The call of `Doc` on the index with pointers returns the slice whose
content `Doc` returns on the index with the contents in place of the pointers,
and the cell of the caller then holds the record that `Doc` reports there. -/
theorem DocRef_refines_Doc (idx : RefIndex M) (heap : Heap M) (filename : String) (out : Nat)
    (hout : out < heap.records.length) :
    (match (DocRef idx heap filename (some out)).1 with
      | .ok body => .ok (heap.bytes.getD body [])
      | .error e => .error e)
      = (Doc (idx.deref heap) filename (some (heap.records.getD out idx.metaType.zero))).1 ∧
    ((DocRef idx heap filename (some out)).1 ≠ .error (.notFoundError filename) →
      some ((DocRef idx heap filename (some out)).2.records.getD out idx.metaType.zero)
        = (Doc (idx.deref heap) filename (some (heap.records.getD out idx.metaType.zero))).2) := by
  have hmeta : (idx.deref heap).docMeta.get? filename
      = (idx.docMeta.get? filename).map (fun a => heap.records.getD a idx.metaType.zero) :=
    GoMap.get?_map_snd idx.docMeta (fun a => heap.records.getD a idx.metaType.zero) filename
  have hdata : (idx.deref heap).docData.get? filename
      = (idx.docData.get? filename).map (fun a => heap.bytes.getD a []) :=
    GoMap.get?_map_snd idx.docData (fun a => heap.bytes.getD a []) filename
  have hzero : (idx.deref heap).metaType.zero = idx.metaType.zero := rfl
  unfold DocRef Doc metaOrZero
  rw [hmeta, hdata, hzero]
  cases idx.docData.get? filename with
  | none => simp
  | some data =>
    cases idx.docMeta.get? filename with
    | none => simp [List.getD_eq_getElem?_getD, List.getElem?_set_self, hout]
    | some a => simp [List.getD_eq_getElem?_getD, List.getElem?_set_self, hout]


/-! ## The claims, continued -/

/-- C19 (counterexample). On the index of the test directory, `AllMetadata`
hands to its caller the pointer to the stored record of `foo.txt`; a call of
`Doc` on `subdir/bar.txt` with that pointer as `meta` overwrites the stored
record, so that the metadata map of the index gives `Title = "bar"` for
`foo.txt`, where it gave `Title = "foo"` before the call. -/
theorem C19_doc_overwrites_stored_record :
    testRefIndex.deref testHeap = testIndex ∧
    AllMetadataRef testRefIndex testHeap (some [])
      = (some [("testdata/foo.txt", 0), ("testdata/subdir/bar.txt", 1)], testHeap) ∧
    (testRefIndex.deref testHeap).docMeta.get? "testdata/foo.txt" = some ⟨"foo"⟩ ∧
    (DocRef testRefIndex testHeap "testdata/subdir/bar.txt" (some 0)).1 = .ok 1 ∧
    (DocRef testRefIndex testHeap "testdata/subdir/bar.txt" (some 0)).2.records
      = [⟨"bar"⟩, ⟨"bar"⟩] ∧
    (testRefIndex.deref
        (DocRef testRefIndex testHeap "testdata/subdir/bar.txt" (some 0)).2).docMeta.get?
      "testdata/foo.txt" = some ⟨"bar"⟩ := by
  refine ⟨rfl, rfl, by decide, rfl, by decide, by decide⟩

/-- C19 (amended). `Doc`, `AllMetadata` and `Filenames` assign to no field of
the index, and the only cell of the heap that they write, apart from new
cells, is the record that the pointer `meta` of `Doc` points to. So when
`meta` is nil or is not one of the pointers held in the metadata map, the
index read through its pointers and slices (metadata map, body map, filename
list, root directory and metadata type) is after each of these calls what it
was before. What the calls hand to the caller is shared with the index: the
body that `Doc` returns is the stored slice `idx.docData[filename]` itself,
`Filenames` returns the slice `idx.filenames` itself, and `AllMetadata` gives
for a file with stored metadata the stored pointer itself. -/
theorem C19_reads_leave_index_unchanged (idx : RefIndex M) (heap : Heap M) (filename : String)
    (out : Nat) (metaMap : Option (GoMap Nat))
    (hout : out ∉ idx.docMeta.map Prod.snd) :
    idx.deref (DocRef idx heap filename (some out)).2 = idx.deref heap ∧
    idx.deref (DocRef idx heap filename none).2 = idx.deref heap ∧
    idx.deref (AllMetadataRef idx heap metaMap).2 = idx.deref heap ∧
    (∀ meta body, (DocRef idx heap filename meta).1 = .ok body →
      idx.docData.get? filename = some body) ∧
    FilenamesRef idx = idx.filenames ∧
    (∀ m f a, f ∈ heap.strings.getD idx.filenames [] → idx.docMeta.get? f = some a →
      ∃ result, (AllMetadataRef idx heap (some m)).1 = some result ∧
        result.get? f = some a) := by
  have hne : ∀ e, e ∈ idx.docMeta → e.2 ≠ out :=
    fun e he heq => hout (heq ▸ List.mem_map_of_mem Prod.snd he)
  refine ⟨?_, ?_, ?_, ?_, rfl, ?_⟩
  · unfold DocRef
    cases idx.docData.get? filename with
    | none => rfl
    | some data =>
      cases idx.docMeta.get? filename with
      | none =>
        exact deref_congr idx heap _ rfl rfl
          (fun e he => getD_set_of_ne heap.records out e.2 _ _ (hne e he))
      | some a =>
        exact deref_congr idx heap _ rfl rfl
          (fun e he => getD_set_of_ne heap.records out e.2 _ _ (hne e he))
  · unfold DocRef
    cases idx.docData.get? filename <;> rfl
  · unfold AllMetadataRef
    cases metaMap with
    | none => rfl
    | some m =>
      obtain ⟨h1, h2, h3⟩ :=
        allMetadataRefLoop_heap idx (heap.strings.getD (FilenamesRef idx) []) m heap
      exact deref_congr idx heap _ h1 h2 (fun e _ => h3 e.2)
  · intro meta body hbody
    unfold DocRef at hbody
    cases hd : idx.docData.get? filename with
    | none => simp [hd] at hbody
    | some data =>
      rw [hd] at hbody
      cases meta with
      | none => simpa using hbody
      | some o =>
        cases hm : idx.docMeta.get? filename <;> simpa [hm] using hbody
  · intro m f a hf ha
    exact ⟨_, rfl, get?_allMetadataRefLoop_of_mem idx _ m heap f a hf ha⟩

/-- C19 (amended) on the test directory. With the caller's own record in cell
2 of the heap, `Doc` on `subdir/bar.txt` writes `Title = "bar"` into that
cell and leaves the index as it was. The body that `Doc` returns for
`foo.txt` is the stored slice, so the assignment `body[0] = 'J'` of the caller
changes the stored body; the list that `Filenames` returns is the stored
slice, so the assignment `names[0] = "zzz"` of the caller changes the stored
list. -/
theorem C19_reads_leave_index_unchanged_witness :
    (DocRef testRefIndex callerHeap "testdata/subdir/bar.txt" (some 2)).2.records
      = [⟨"foo"⟩, ⟨"bar"⟩, ⟨"bar"⟩] ∧
    (testRefIndex.deref
        (DocRef testRefIndex callerHeap "testdata/subdir/bar.txt" (some 2)).2
      = testRefIndex.deref callerHeap) ∧
    (DocRef testRefIndex testHeap "testdata/foo.txt" none).1 = .ok 0 ∧
    (testRefIndex.deref (writeByte testHeap 0 0 74)).docData.get? "testdata/foo.txt"
      = some (bytesOf "Jello from foo.\n") ∧
    FilenamesRef testRefIndex = 0 ∧
    (testRefIndex.deref (writeString testHeap 0 0 "zzz")).filenames
      = ["zzz", "testdata/subdir/bar.txt"] :=
  ⟨by decide,
    (C19_reads_leave_index_unchanged testRefIndex callerHeap
      "testdata/subdir/bar.txt" 2 none (by decide)).1,
    rfl, by decide, rfl, by decide⟩


/-! ## Lemmas on the mutex -/

theorem guardedFrom_accesses (l : List Event) (h : l.all Event.isAccess = true) :
    guardedFrom true (l ++ [.unlock]) = true := by
  induction l with
  | nil => rfl
  | cons e rest ih =>
    simp only [List.all_cons, Bool.and_eq_true] at h
    have hrest := ih h.2
    cases e with
    | lock => simp [Event.isAccess] at h
    | unlock => simp [Event.isAccess] at h
    | read f => simpa [guardedFrom] using hrest
    | write f => simpa [guardedFrom] using hrest

theorem guarded_of_accesses (l : List Event) (h : l.all Event.isAccess = true) :
    Guarded (.lock :: (l ++ [.unlock])) = true := by
  simpa [Guarded, guardedFrom] using guardedFrom_accesses l h

theorem loadFileEvents_accesses (fs : FileSystem) (idx : Index M) (file : String) :
    (loadFileEvents fs idx file).all Event.isAccess = true := by
  unfold loadFileEvents
  cases fs.readFile file with
  | error err => rfl
  | ok data =>
    simp only
    by_cases hs : 0 ≤ bytesIndex data delim
    · simp only [hs, if_true]
      cases idx.metaType.unmarshal (sliceTo data (bytesIndex data delim)) with
      | error err => rfl
      | ok m =>
        cases sliceFrom data (bytesIndex data delim + (delim.length : Int)) <;> rfl
    · simp only [hs, if_false]
      cases sliceFrom data (bytesIndex data delim + (delim.length : Int)) <;> rfl

theorem walkFnEvents_accesses (fs : FileSystem) (idx : Index M) (entry : WalkEntry) :
    (walkFnEvents fs idx entry).all Event.isAccess = true := by
  cases entry with
  | failed p err => rfl
  | info p isRegular =>
    cases isRegular with
    | false => rfl
    | true => simpa [walkFnEvents] using loadFileEvents_accesses fs idx p

theorem walkLoopEvents_accesses (fs : FileSystem) (idx : Index M) (es : List WalkEntry) :
    (walkLoopEvents fs idx es).all Event.isAccess = true := by
  induction es generalizing idx with
  | nil => rfl
  | cons entry rest ih =>
    rw [walkLoopEvents, List.all_append, walkFnEvents_accesses, Bool.true_and]
    rcases walkFn fs idx entry with ⟨idx1, r⟩
    cases r with
    | nil => exact ih idx1
    | error err => rfl
    | panic msg => rfl

theorem allMetadataLoopEvents_accesses (idx : Index M) (l : List String) :
    (allMetadataLoopEvents idx l).all Event.isAccess = true := by
  induction l with
  | nil => rfl
  | cons f rest ih =>
    rw [allMetadataLoopEvents, List.all_append, ih, Bool.and_true]
    cases idx.docMeta.get? f <;> rfl

/-- `Reload` reads and writes the index only between its lock and its
deferred unlock. -/
theorem guarded_ReloadEvents (fs : FileSystem) (idx : Index M) :
    Guarded (ReloadEvents fs idx) = true := by
  have hshape : ReloadEvents fs idx = .lock ::
      (([.write .docMeta, .write .docData, .read .dir] ++
        walkLoopEvents fs { idx with docMeta := GoMap.empty, docData := GoMap.empty }
          (fs.walk idx.dir) ++
        (match walkLoop fs { idx with docMeta := GoMap.empty, docData := GoMap.empty }
            (fs.walk idx.dir) with
          | (_, .nil) =>
            [.read .docData, .write .filenames, .read .docData, .write .filenames,
              .read .filenames, .write .filenames]
          | _ => [])) ++ [.unlock]) := by
    simp [ReloadEvents]
  rw [hshape]
  apply guarded_of_accesses
  rw [List.all_append, List.all_append, walkLoopEvents_accesses]
  rcases walkLoop fs { idx with docMeta := GoMap.empty, docData := GoMap.empty }
    (fs.walk idx.dir) with ⟨w, r⟩
  cases r <;> rfl

/-- `Doc` reads the index only between its lock and its deferred unlock. -/
theorem guarded_DocEvents (idx : Index M) (filename : String) (meta : Option M) :
    Guarded (DocEvents idx filename meta) = true := by
  unfold DocEvents
  cases idx.docData.get? filename with
  | none => rfl
  | some data =>
    cases meta with
    | none => rfl
    | some out => cases idx.docMeta.get? filename <;> rfl

/-- `AllMetadata` reads the index, also through its call of `Filenames`, only
between its lock and its deferred unlock. -/
theorem guarded_AllMetadataEvents (idx : Index M) (metaMap : Option (GoMap M)) :
    Guarded (AllMetadataEvents idx metaMap) = true := by
  unfold AllMetadataEvents
  apply guarded_of_accesses
  cases metaMap with
  | none => rfl
  | some m =>
    simp only [FilenamesEvents, List.singleton_append, List.all_cons]
    rw [allMetadataLoopEvents_accesses]
    rfl

/-! ## The claims, continued -/

/-- C17 (the code departs from the claim). `Filenames` reads `idx.filenames`
without holding the mutex, while `Reload`, which assigns `idx.filenames`, and
`Doc` and `AllMetadata` do all their reads and writes between `Lock` and the
deferred `Unlock`. And a caller does observe a filename that is in the list
and absent from the body lookup: after a `Reload` that fails at `subdir`,
`Filenames()` lists `testdata/subdir/bar.txt` and `Doc` on it is a not-found
error. -/
theorem C17_filenames_reads_without_lock :
    Guarded FilenamesEvents = false ∧
    (∀ (fs : FileSystem) (idx : Index Metadata), Guarded (ReloadEvents fs idx) = true) ∧
    (∀ (idx : Index Metadata) filename meta, Guarded (DocEvents idx filename meta) = true) ∧
    (∀ (idx : Index Metadata) metaMap, Guarded (AllMetadataEvents idx metaMap) = true) ∧
    Event.write Field.filenames ∈ ReloadEvents testFS testIndex ∧
    (Reload RangeOrder.reversed brokenFS testIndex).2
      = .error (.os ⟨"permission denied"⟩) ∧
    "testdata/subdir/bar.txt" ∈ Filenames (Reload RangeOrder.reversed brokenFS testIndex).1 ∧
    (Doc (Reload RangeOrder.reversed brokenFS testIndex).1 "testdata/subdir/bar.txt"
        (some ⟨"old"⟩)).1
      = .error (.notFoundError "testdata/subdir/bar.txt") := by
  refine ⟨rfl, fun fs idx => guarded_ReloadEvents fs idx,
    fun idx f m => guarded_DocEvents idx f m,
    fun idx mm => guarded_AllMetadataEvents idx mm, by decide, rfl, by decide, rfl⟩

end Docindex
